import Mathlib

/-!
# stream_tar_from_xz

A shallow embedding of `main.go` (the size query `getXzUncompressedSize` and the
`filepath.Walk` callback of `main`) together with the parts of the Go standard library
the program relies on (`strings`, `strconv`, `path/filepath`, `archive/tar`, `os/exec`),
followed by the theorems that settle the claims of the specification.

Modelling conventions.

* A Go string is the list of its characters.  Every string the program itself introduces
  (`"file"`, `".xz"`, `"\n"`, `"/"`) is ASCII, where characters and bytes coincide; `len`
  and slicing count characters.
* The outside world (file system, external commands) is an explicit value of type `World`.
* The effects of a run are recorded as a list of `Event`s, in the order they happen.
* A Go `panic` is the `panicked` result; it carries the state reached at that point.
* The archive sink accepts every write; diagnostics printed on standard error, ownership
  and time stamps other than the modification time are not recorded.
-/

namespace StreamTar

deriving instance DecidableEq for Except

/-! ## Strings (`strings`) -/

/-- A Go string. -/
abbrev GoString := List Char

/-- Go `strings.HasPrefix`. -/
def HasPrefix (s pre : GoString) : Bool := pre.isPrefixOf s

/-- Go `strings.HasSuffix`. -/
def HasSuffix (s suf : GoString) : Bool := suf.isSuffixOf s

/-- Go `unicode.ToLower` on one character; only the ASCII range is mapped (no character
outside it lowers to `.`, `x` or `z`, the only characters the program compares with). -/
def toLowerChar (c : Char) : Char :=
  if 'A' ≤ c ∧ c ≤ 'Z' then Char.ofNat (c.toNat + 32) else c

/-- Go `strings.ToLower`. -/
def ToLower (s : GoString) : GoString := s.map toLowerChar

/-- Go `unicode.IsSpace`. -/
def isSpace (c : Char) : Bool :=
  c == '\t' || c == '\n' || c.toNat == 0x0b || c.toNat == 0x0c || c == '\r' || c == ' ' ||
  c.toNat == 0x85 || c.toNat == 0xa0 || c.toNat == 0x1680 ||
  (0x2000 ≤ c.toNat && c.toNat ≤ 0x200a) ||
  c.toNat == 0x2028 || c.toNat == 0x2029 || c.toNat == 0x202f || c.toNat == 0x205f ||
  c.toNat == 0x3000

/-- The scanning loop of `strings.Fields`: `cur` is the field being read, reversed. -/
def fieldsLoop : GoString → GoString → List GoString
  | cur, [] => if cur.isEmpty then [] else [cur.reverse]
  | cur, c :: cs =>
    if isSpace c then
      if cur.isEmpty then fieldsLoop [] cs else cur.reverse :: fieldsLoop [] cs
    else fieldsLoop (c :: cur) cs

/-- Go `strings.Fields`: the maximal runs of non-space characters. -/
def Fields (s : GoString) : List GoString := fieldsLoop [] s

/-- Go `strings.Split(s, sep)` for a one-character separator `sep`. -/
def Split (sep : Char) : GoString → List GoString
  | [] => [[]]
  | c :: cs =>
    if c = sep then [] :: Split sep cs
    else
      match Split sep cs with
      | [] => [[c]]
      | l :: ls => (c :: l) :: ls

/-- Go `strings.Join(elems, sep)` for a one-character separator. -/
def joinWith (sep : Char) : List GoString → GoString
  | [] => []
  | [l] => l
  | l :: ls => l ++ sep :: joinWith sep ls

/-- Go `s[n:]`: `none` is the run-time panic "slice bounds out of range". -/
def sliceFrom (s : GoString) (n : Nat) : Option GoString :=
  if n ≤ s.length then some (s.drop n) else none

/-- Go `s[:len(s)-k]`: `none` is the run-time panic "slice bounds out of range". -/
def sliceDropLast (s : GoString) (k : Nat) : Option GoString :=
  if k ≤ s.length then some (s.take (s.length - k)) else none

/-! ## Number conversion (`strconv`) -/

/-- The two sentinel errors of `strconv`. -/
inductive NumError where
  | ErrSyntax
  | ErrRange
  deriving DecidableEq, Repr

/-- Largest `uint64`. -/
def maxUint64 : Nat := 2 ^ 64 - 1

/-- The digit loop of `strconv.ParseUint(s, 10, 64)`; `n` is the value read so far.
`cutoff = maxUint64/10 + 1` is the smallest number whose tenfold overflows. -/
def parseUintLoop : Nat → GoString → Except NumError Nat
  | n, [] => .ok n
  | n, c :: cs =>
    let d? : Option Nat :=
      if '0' ≤ c ∧ c ≤ '9' then some (c.toNat - '0'.toNat)
      else if 'a'.toNat ≤ (c.toNat ||| 0x20) ∧ (c.toNat ||| 0x20) ≤ 'z'.toNat then
        some ((c.toNat ||| 0x20) - 'a'.toNat + 10)
      else none
    match d? with
    | none => .error .ErrSyntax
    | some d =>
      if d ≥ 10 then .error .ErrSyntax
      else if n ≥ maxUint64 / 10 + 1 then .error .ErrRange
      else
        let n10 := n * 10
        let n1 := (n10 + d) % 2 ^ 64
        if n1 < n10 ∨ n1 > maxUint64 then .error .ErrRange
        else parseUintLoop n1 cs

/-- Go `strconv.ParseUint(s, 10, 64)`. -/
def ParseUint (s : GoString) : Except NumError Nat :=
  if s.isEmpty then .error .ErrSyntax else parseUintLoop 0 s

/-- Two's-complement wrap of an integer into the `int64` range. -/
def wrapInt64 (x : Int) : Int := (x + 2 ^ 63) % 2 ^ 64 - 2 ^ 63

/-- Go `strconv.ParseInt(s, 10, 64)`. -/
def ParseInt (s : GoString) : Except NumError Int :=
  match s with
  | [] => .error .ErrSyntax
  | c :: rest =>
    let neg := c == '-'
    let s1 := if c == '+' || c == '-' then rest else s
    match ParseUint s1 with
    | .error .ErrSyntax => .error .ErrSyntax
    | r =>
      let un : Nat := match r with
        | .ok n => n
        | .error _ => maxUint64
      let cutoff : Nat := 2 ^ 63
      if !neg && un ≥ cutoff then .error .ErrRange
      else if neg && un > cutoff then .error .ErrRange
      else
        let n : Int := wrapInt64 un
        .ok (if neg then wrapInt64 (-n) else n)

/-- Go `strconv.Itoa` on a non-negative number. -/
def Itoa (n : Nat) : GoString := Nat.toDigits 10 n

/-! ## Paths (`path/filepath`, `os`) -/

/-- The backtracking of `Clean` on a `..` element, on the reversed output buffer:
`out.w--` followed by `for out.w > dotdot && !IsPathSeparator(out.index(out.w)) { out.w-- }`.
The head `c` is the character at `out.index(out.w)` once `out.w` has been decremented. -/
def backtrack (dotdot : Nat) : GoString → GoString
  | [] => []
  | c :: rev => if rev.length > dotdot ∧ c ≠ '/' then backtrack dotdot rev else rev

/-- The main loop of `filepath.Clean` over the unread input.  `out` is the output buffer,
reversed; `inElem` tells that the loop is inside the copy of a path element (the inner
`for` of the `default` case). -/
def cleanLoop (rooted : Bool) : Bool → GoString → GoString → Nat → GoString
  | _, [], out, _ => out
  | true, c :: cs, out, dotdot =>
    if c = '/' then cleanLoop rooted false cs out dotdot
    else cleanLoop rooted true cs (c :: out) dotdot
  | false, c :: cs, out, dotdot =>
    if c = '/' then
      -- empty path element
      cleanLoop rooted false cs out dotdot
    else
      match c, cs with
      | '.', [] => cleanLoop rooted false [] out dotdot
      | '.', '/' :: cs1 => cleanLoop rooted false ('/' :: cs1) out dotdot
      | '.', ['.'] =>
        if out.length > dotdot then cleanLoop rooted false [] (backtrack dotdot out) dotdot
        else if !rooted then
          let out1 := '.' :: '.' :: (if out.length > 0 then '/' :: out else out)
          cleanLoop rooted false [] out1 out1.length
        else cleanLoop rooted false [] out dotdot
      | '.', '.' :: '/' :: cs2 =>
        if out.length > dotdot then
          cleanLoop rooted false ('/' :: cs2) (backtrack dotdot out) dotdot
        else if !rooted then
          let out1 := '.' :: '.' :: (if out.length > 0 then '/' :: out else out)
          cleanLoop rooted false ('/' :: cs2) out1 out1.length
        else cleanLoop rooted false ('/' :: cs2) out dotdot
      | c, cs =>
        -- real path element: add a slash if needed, then copy the element
        let out1 := if (rooted && out.length != 1) || (!rooted && out.length != 0)
                    then '/' :: out else out
        cleanLoop rooted true cs (c :: out1) dotdot

/-- Go `filepath.Clean` (Unix: the separator is `/`, there is no volume name). -/
def Clean (path : GoString) : GoString :=
  match path with
  | [] => ['.']
  | c :: cs =>
    let rooted := c == '/'
    let out := if rooted then cleanLoop true false cs ['/'] 1
               else cleanLoop false false (c :: cs) [] 0
    if out.isEmpty then ['.'] else out.reverse

/-- Go `filepath.Join`: the elements from the first non-empty one on, joined by `/` and
cleaned. -/
def Join (elem : List GoString) : GoString :=
  match elem.dropWhile (fun e => e.isEmpty) with
  | [] => []
  | es => Clean (joinWith '/' es)

/-- First loop of `os.basename`, on the reversed name: remove trailing slashes but keep at
least one character. -/
def stripTrailingSlashes : GoString → GoString
  | c :: c1 :: rest => if c = '/' then stripTrailingSlashes (c1 :: rest) else c :: c1 :: rest
  | s => s

/-- Go `os.basename`, which gives `FileInfo.Name()` of the result of `os.Lstat`. -/
def basename (name : GoString) : GoString :=
  match stripTrailingSlashes name.reverse with
  | [] => []
  | c :: rest => (c :: rest.takeWhile (fun x => x != '/')).reverse

/-! ## The file system (`os`, `io/fs`) -/

/-- The type bits of an `fs.FileMode`. -/
inductive FileKind where
  | regular
  | dir
  | symlink
  | charDevice
  | blockDevice
  | namedPipe
  | socket
  | irregular
  deriving DecidableEq, Repr

/-- What `lstat` reports about a path. -/
structure FileStat where
  kind : FileKind
  size : Int
  perm : Nat
  modTime : Int
  deriving DecidableEq, Repr

/-- Go `os.FileInfo`. -/
structure FileInfo where
  Name : GoString
  stat : FileStat
  deriving DecidableEq, Repr

/-- Go `fi.IsDir()`. -/
def FileInfo.IsDir (fi : FileInfo) : Bool := fi.stat.kind == FileKind.dir

/-- Go `fi.Mode().IsRegular()`. -/
def FileInfo.IsRegular (fi : FileInfo) : Bool := fi.stat.kind == FileKind.regular

/-- Go `fi.Size()`. -/
def FileInfo.Size (fi : FileInfo) : Int := fi.stat.size

/-- A path of the file system as the walker sees it: the result of `lstat` on it (`none`
when it fails) and the result of reading it as a directory (`none` when that fails), each
name of the listing with the file system below it. -/
inductive FsNode where
  | node (lstat : Option FileStat) (entries : Option (List (GoString × FsNode)))

/-- Why the walker hands an error to its callback. -/
inductive IOError where
  | lstatFailed
  | readDirFailed
  deriving DecidableEq, Repr

/-- What a command does once started with an unobstructed standard output: the chunks it
writes and its exit status; or it cannot be started at all. -/
inductive CmdResult where
  | launchFailed
  | exited (stdout : List GoString) (code : Nat)
  deriving DecidableEq, Repr

/-- What reading an opened file yields: the chunks returned by successive `Read`s, and
whether the last `Read` ends with an error instead of `io.EOF`. -/
structure FileData where
  chunks : List GoString
  readError : Bool
  deriving DecidableEq, Repr

/-- The environment of one run of the program. -/
structure World where
  /-- `os.Args` -/
  args : List GoString
  /-- `runtime.NumCPU()` -/
  numCPU : Nat
  /-- `os.Getenv("XZ_NUM_THREADS")` -/
  envThreads : GoString
  /-- whether `os.Create` of the output file succeeds -/
  createOk : Bool
  /-- the file system at `os.Args[1]` -/
  root : FsNode
  /-- the behaviour of an external command, given its argument vector -/
  exec : List GoString → CmdResult
  /-- `os.Open` and the content then read; `none` when the file cannot be opened -/
  openFile : GoString → Option FileData

/-! ## The archive writer (`archive/tar`) -/

/-- The type flags `tar.FileInfoHeader` can produce. -/
inductive TypeFlag where
  | TypeReg
  | TypeDir
  | TypeSymlink
  | TypeChar
  | TypeBlock
  | TypeFifo
  deriving DecidableEq, Repr

/-- Go `tar.Header` (name, link name, size, type, permission bits, modification time). -/
structure Header where
  Name : GoString
  Linkname : GoString
  Size : Int
  Typeflag : TypeFlag
  Mode : Nat
  ModTime : Int
  deriving DecidableEq, Repr

/-- Go `tar.isHeaderOnlyType`: entries of these types have no body. -/
def isHeaderOnlyType (t : TypeFlag) : Bool :=
  match t with
  | .TypeSymlink | .TypeChar | .TypeBlock | .TypeDir | .TypeFifo => true
  | .TypeReg => false

/-- Errors of the archive writer and of `tar.FileInfoHeader`. -/
inductive TarError where
  | unsupportedMode
  | trailingSlash
  | negativeSize
  | missedWriting (nb : Int)
  | ErrWriteTooLong
  deriving DecidableEq, Repr

/-- Go `tar.FileInfoHeader(fi, link)`. -/
def FileInfoHeader (fi : FileInfo) (link : GoString) : Except TarError Header :=
  let h : Header :=
    { Name := fi.Name, Linkname := [], Size := 0, Typeflag := .TypeReg,
      Mode := fi.stat.perm, ModTime := fi.stat.modTime }
  match fi.stat.kind with
  | .regular => .ok { h with Typeflag := .TypeReg, Size := fi.Size }
  | .dir => .ok { h with Typeflag := .TypeDir, Name := h.Name ++ ['/'] }
  | .symlink => .ok { h with Typeflag := .TypeSymlink, Linkname := link }
  | .charDevice => .ok { h with Typeflag := .TypeChar }
  | .blockDevice => .ok { h with Typeflag := .TypeBlock }
  | .namedPipe => .ok { h with Typeflag := .TypeFifo }
  | .socket => .error .unsupportedMode
  | .irregular => .error .unsupportedMode

/-- One observable effect of a run. -/
inductive Event where
  /-- an external command is run with this argument vector -/
  | exec (argv : List GoString)
  /-- `WriteHeader` emitted this header -/
  | writeHeader (h : Header)
  /-- `Write` passed these body bytes on to the archive -/
  | write (b : GoString)
  /-- a call of `Flush` by the program succeeded -/
  | flush
  /-- `Close` emitted the end-of-archive trailer -/
  | close
  deriving DecidableEq, Repr

/-- The state of a run: the effects so far, and the field `nb` of the archive writer's
current entry (the number of body bytes still to be written). -/
structure State where
  log : List Event
  nb : Int
  deriving DecidableEq, Repr

/-- The check at the start of `tar.Writer.Flush`: unwritten body bytes are an error. -/
def flushCheck (s : State) : Except TarError State :=
  if s.nb > 0 then .error (.missedWriting s.nb) else .ok s

/-- Go `(*tar.Writer).Flush`. -/
def Flush (s : State) : Except TarError State :=
  match flushCheck s with
  | .error e => .error e
  | .ok s => .ok { s with log := s.log ++ [.flush] }

/-- The header validation of `tar.Header.allowedFormats` that can reject a header built
by `FileInfoHeader`. -/
def checkHeader (h : Header) : Except TarError Unit :=
  if (h.Typeflag = .TypeReg ∨ h.Typeflag = .TypeChar ∨ h.Typeflag = .TypeBlock ∨
      h.Typeflag = .TypeFifo) ∧ HasSuffix h.Name ['/'] then .error .trailingSlash
  else if !isHeaderOnlyType h.Typeflag ∧ h.Size < 0 then .error .negativeSize
  else .ok ()

/-- Go `(*tar.Writer).WriteHeader`: flush the previous entry, validate, emit the header
block and start the body of the new entry (`writeRawHeader`). -/
def WriteHeader (s : State) (h : Header) : Except TarError State :=
  match flushCheck s with
  | .error e => .error e
  | .ok s =>
    match checkHeader h with
    | .error e => .error e
    | .ok _ =>
      .ok { log := s.log ++ [.writeHeader h],
            nb := if isHeaderOnlyType h.Typeflag then 0 else h.Size }

/-- Go `(*tar.Writer).Write` (`regFileWriter.Write`): at most `nb` bytes are passed on;
a longer write is cut and reported as `ErrWriteTooLong`. -/
def Write (s : State) (b : GoString) : State × Option TarError :=
  let overwrite : Bool := (b.length : Int) > s.nb
  let b1 := if overwrite then b.take s.nb.toNat else b
  let s1 : State :=
    if b1.length > 0 then { log := s.log ++ [.write b1], nb := s.nb - b1.length } else s
  (s1, if overwrite then some .ErrWriteTooLong else none)

/-- Go `(*tar.Writer).Close`: flush, then the trailer.  Its error is ignored by `main`. -/
def Close (s : State) : State :=
  match flushCheck s with
  | .error _ => s
  | .ok s => { s with log := s.log ++ [.close] }

/-! ## Streaming into the writer (`io`, `os/exec`) -/

/-- The copy loop shared by `io.Copy(w, f)` and by the goroutine that `os/exec` starts for
a non-file `Stdout`: one `Write` per chunk, stopping at the first error. -/
def copyChunks : State → List GoString → State × Option TarError
  | s, [] => (s, none)
  | s, b :: bs =>
    match Write s b with
    | (s1, some e) => (s1, some e)
    | (s1, none) => copyChunks s1 bs

/-- Go `io.Copy(w, f)`; the Boolean tells whether the returned error is non-nil. -/
def ioCopy (s : State) (f : FileData) : State × Bool :=
  match copyChunks s f.chunks with
  | (s1, some _) => (s1, true)
  | (s1, none) => (s1, f.readError)

/-- Go `(*exec.Cmd).Output`: the standard output, unless the command cannot be started or
exits with a non-zero status. -/
def Output (os : World) (argv : List GoString) (s : State) : State × Option GoString :=
  let s1 : State := { s with log := s.log ++ [.exec argv] }
  match os.exec argv with
  | .launchFailed => (s1, none)
  | .exited stdout code => (s1, if code = 0 then some stdout.flatten else none)

/-- Go `(*exec.Cmd).Run` with `Stdout = w`; the Boolean tells whether the returned error
is non-nil (the command cannot be started, a `Write` fails, or the exit status is not 0). -/
def Run (os : World) (argv : List GoString) (s : State) : State × Bool :=
  let s1 : State := { s with log := s.log ++ [.exec argv] }
  match os.exec argv with
  | .launchFailed => (s1, true)
  | .exited stdout code =>
    match copyChunks s1 stdout with
    | (s2, some _) => (s2, true)
    | (s2, none) => (s2, code != 0)

/-! ## The program (`main.go`) -/

/-- The four ways `getXzUncompressedSize` fails, by error message. -/
inductive SizeError where
  /-- "failed to execute xz command" -/
  | execFailed
  /-- "unexpected xz output format" -/
  | unexpectedFormat
  /-- "failed to parse uncompressed size" -/
  | parseFailed
  /-- "could not find file information in xz output" -/
  | notFound
  deriving DecidableEq, Repr

/-- The argument vector of the listing command, `xz -l --robot filePath`. -/
def xzListArgv (filePath : GoString) : List GoString :=
  ["xz".toList, "-l".toList, "--robot".toList, filePath]

/-- The argument vector of the decompression command,
`xz -d -c --threads <xzNumThreads> path`. -/
def xzDecompressArgv (xzNumThreads : Nat) (path : GoString) : List GoString :=
  ["xz".toList, "-d".toList, "-c".toList, "--threads".toList, Itoa xzNumThreads, path]

/-- The `for _, line := range lines` loop of `getXzUncompressedSize`. -/
def findFileLine : List GoString → Except SizeError Int
  | [] => .error .notFound
  | line :: lines =>
    if HasPrefix line "file".toList then
      let fields := Fields line
      if fields.length < 5 then .error .unexpectedFormat
      else
        match ParseInt (fields.getD 4 []) with
        | .error _ => .error .parseFailed
        | .ok size => .ok size
    else findFileLine lines

/-- What `getXzUncompressedSize` computes from the output of the listing command. -/
def parseXzOutput (output : GoString) : Except SizeError Int :=
  findFileLine (Split '\n' output)

/-- `getXzUncompressedSize` of `main.go`. -/
def getXzUncompressedSize (os : World) (filePath : GoString) (s : State) :
    State × Except SizeError Int :=
  match Output os (xzListArgv filePath) s with
  | (s1, none) => (s1, .error .execFailed)
  | (s1, some output) => (s1, parseXzOutput output)

/-- The places where a run can panic: the tagged `panic` calls of `main.go` and the two
run-time panics of the callback. -/
inductive Panic where
  /-- "usage: stream_tar_from_xz ..." -/
  | usage
  /-- tag c4f3e1b1 -/
  | createOutput
  /-- tag 3a02a579 -/
  | fileInfoHeader
  /-- tag d62acf81 (both `WriteHeader` calls carry it) -/
  | writeHeader
  /-- tag a70d8e38 -/
  | uncompressedSize
  /-- tag ef48d364 -/
  | decompress
  /-- tag a8d58e7b -/
  | openFile
  /-- tag 542d541f -/
  | copy
  /-- tag 8b32cbaf -/
  | flush
  /-- run-time error: slice bounds out of range -/
  | sliceBounds
  /-- run-time error: nil pointer dereference -/
  | nilDereference
  deriving DecidableEq, Repr

/-- The errors a `filepath.WalkFunc` can return. -/
inductive WalkError where
  | SkipDir
  | SkipAll
  | other
  deriving DecidableEq, Repr

/-- The result of running a piece of the program from a state: it returns (with a Go
`error`, `none` for `nil`) or it panics. -/
inductive Res where
  | ret (err : Option WalkError) (s : State)
  | panicked (p : Panic) (s : State)
  deriving DecidableEq, Repr

/-- The state in which a piece of the program stops. -/
def Res.state : Res → State
  | .ret _ s => s
  | .panicked _ s => s

/-- Lines 112-128 of the callback: for a compressed file, resolve the size and rewrite the
header; the header is returned unchanged otherwise. -/
def prepareHeader (os : World) (isXz : Bool) (path : GoString) (header : Header)
    (s : State) : Except (Panic × State) (Header × State) :=
  if isXz then
    match getXzUncompressedSize os path s with
    | (s1, .error _) => .error (.uncompressedSize, s1)
    | (s1, .ok uncompressedFileSize) =>
      match sliceDropLast header.Name 3 with
      | none => .error (.sliceBounds, s1)
      | some name => .ok ({ header with Name := name, Size := uncompressedFileSize }, s1)
  else .ok (header, s)

/-- Lines 136-155 of the callback: stream the body into the archive writer. -/
def writeBody (os : World) (xzNumThreads : Nat) (isXz : Bool) (path : GoString)
    (s : State) : Except (Panic × State) State :=
  if isXz then
    match Run os (xzDecompressArgv xzNumThreads path) s with
    | (s1, true) => .error (.decompress, s1)
    | (s1, false) => .ok s1
  else
    match os.openFile path with
    | none => .error (.openFile, s)
    | some f =>
      match ioCopy s f with
      | (s1, true) => .error (.copy, s1)
      | (s1, false) => .ok s1

/-- The callback that `main` passes to `filepath.Walk` (lines 80-164). -/
def walkFn (os : World) (dirPath : GoString) (xzNumThreads : Nat)
    (path : GoString) (fi : Option FileInfo) (_err : Option IOError) (s : State) : Res :=
  -- Skip own root
  if path = dirPath then .ret none s
  else
    match sliceFrom path (dirPath.length + 1) with
    | none => .panicked .sliceBounds s
    | some rel =>
      match fi with
      | none => .panicked .nilDereference s
      | some fi =>
        match FileInfoHeader fi fi.Name with
        | .error _ => .panicked .fileInfoHeader s
        | .ok header =>
          let isXz := !fi.IsDir && HasSuffix (ToLower fi.Name) ".xz".toList
          let header : Header :=
            if fi.IsDir then { header with Name := rel ++ "/".toList }
            else { header with Name := rel }
          if fi.IsDir then
            match WriteHeader s header with
            | .error _ => .panicked .writeHeader s
            | .ok s1 => .ret none s1
          else
            match prepareHeader os isXz path header s with
            | .error (p, s1) => .panicked p s1
            | .ok (header, s1) =>
              match WriteHeader s1 header with
              | .error _ => .panicked .writeHeader s1
              | .ok s2 =>
                match writeBody os xzNumThreads isXz path s2 with
                | .error (p, s3) => .panicked p s3
                | .ok s3 =>
                  match Flush s3 with
                  | .error _ => .panicked .flush s3
                  | .ok s4 => .ret none s4

/-- Go `filepath.WalkFunc`, as a state transformer. -/
abbrev WalkFunc := GoString → Option FileInfo → Option IOError → State → Res

/-- The `for _, name := range names` loop of `filepath.walk`: each step either lets the
loop go on (`ret none`) or makes `walk` return. -/
def walkLoop : List (GoString × (State → Res)) → State → Res
  | [], s => .ret none s
  | (_, step) :: rest, s =>
    match step s with
    | .ret none s1 => walkLoop rest s1
    | r => r

mutual
/-- One step of the loop of `filepath.walk` for the path `filename`: `lstat`, then the
callback (on error) or `walk` itself, and the decision whether the loop goes on. -/
def walkStep (fn : WalkFunc) : FsNode → GoString → State → Res
  | .node none _, filename, s =>
    match fn filename none (some .lstatFailed) s with
    | .ret (some e) s1 => if e ≠ .SkipDir then .ret (some e) s1 else .ret none s1
    | r => r
  | .node (some st) entries, filename, s =>
    let fileInfo : FileInfo := { Name := basename filename, stat := st }
    match walk fn fileInfo entries filename s with
    | .ret (some e) s1 =>
      if !fileInfo.IsDir || e ≠ .SkipDir then .ret (some e) s1 else .ret none s1
    | r => r
/-- Go `filepath.walk(path, info, walkFn)`; `entries` is what reading `path` as a
directory yields. -/
def walk (fn : WalkFunc) (info : FileInfo) :
    Option (List (GoString × FsNode)) → GoString → State → Res
  | entries, path, s =>
    if !info.IsDir then fn path (some info) none s
    else
      match entries with
      | none => fn path (some info) (some .readDirFailed) s
      | some es =>
        match fn path (some info) none s with
        | .ret none s1 =>
          walkLoop ((walkSteps fn es path).insertionSort (fun a b => a.1 ≤ b.1)) s1
        | r => r
/-- The loop steps for the entries of the directory `path`, unsorted. -/
def walkSteps (fn : WalkFunc) :
    List (GoString × FsNode) → GoString → List (GoString × (State → Res))
  | [], _ => []
  | (name, child) :: rest, path =>
    (name, walkStep fn child (Join [path, name])) :: walkSteps fn rest path
end

/-- Go `filepath.Walk(root, fn)`. -/
def Walk (tree : FsNode) (root : GoString) (fn : WalkFunc) (s : State) : Res :=
  let r : Res :=
    match tree with
    | .node none _ => fn root none (some .lstatFailed) s
    | .node (some st) entries => walk fn { Name := basename root, stat := st } entries root s
  match r with
  | .ret (some .SkipDir) s1 => .ret none s1
  | .ret (some .SkipAll) s1 => .ret none s1
  | r => r

/-- The thread count of lines 56-62: `XZ_NUM_THREADS` when it is set to a positive
number, `runtime.NumCPU()` otherwise. -/
def xzNumThreads (os : World) : Nat :=
  if os.envThreads.isEmpty then os.numCPU
  else
    match ParseInt os.envThreads with
    | .ok nbProcs => if nbProcs > 0 then nbProcs.toNat else os.numCPU
    | .error _ => os.numCPU

/-- How the process ends. -/
inductive Exit where
  /-- `main` returns: exit status 0 -/
  | success
  /-- a panic reaches the top: the process is killed with a non-zero status -/
  | crash (p : Panic)
  deriving DecidableEq, Repr

/-- `main` of `main.go`: the way the process ends and everything it did.  The deferred
`w.Close()` runs on return and on panic alike; the value returned by `filepath.Walk` is
dropped. -/
def main (os : World) : Exit × List Event :=
  if os.args.length < 2 then (.crash .usage, [])
  else
    let dirPath := os.args.getD 1 []
    if os.args.length > 2 ∧ !os.createOk then (.crash .createOutput, [])
    else
      let w : State := { log := [], nb := 0 }
      match Walk os.root dirPath (walkFn os dirPath (xzNumThreads os)) w with
      | .ret _ s => (.success, (Close s).log)
      | .panicked p s => (.crash p, (Close s).log)

/-! ## Notions of the specification -/

/-- A decimal digit. -/
def isDigit (c : Char) : Bool := decide ('0' ≤ c ∧ c ≤ '9')

/-- The number a digit string denotes, continuing from `n`. -/
def digitsValue (n : Nat) (ds : GoString) : Nat :=
  ds.foldl (fun acc c => 10 * acc + (c.toNat - 48)) n

/-- The value of a decimal integer numeral: an optional sign, then one digit or
more; `none` for any other string. -/
def decimalValue : GoString → Option Int
  | [] => none
  | c :: rest =>
    let ds := if c = '+' ∨ c = '-' then rest else c :: rest
    if ds ≠ [] ∧ ds.all isDigit then
      some (if c = '-' then -(digitsValue 0 ds : Int) else (digitsValue 0 ds : Int))
    else none

/-- The summary record of a listing: its first line that begins with `file`. -/
def summaryLine (output : GoString) : Option GoString :=
  (Split '\n' output).find? (fun line => HasPrefix line "file".toList)

/-- The fifth whitespace-separated field of a line (empty when there is none). -/
def sizeField (line : GoString) : GoString := (Fields line).getD 4 []

/-- The `Write` events of a body that is accepted whole, chunk by chunk: a chunk of no
bytes leaves no event. -/
def writeEvents (chunks : List GoString) : List Event :=
  (chunks.filter (fun b => !b.isEmpty)).map Event.write

/-- One entry of the archive: its header and the body bytes that follow it. -/
structure Entry where
  header : Header
  body : GoString
  deriving DecidableEq, Repr

/-- Reading the archive off the effects, one event at a time; the entries are kept most
recent first. -/
def entriesStep (acc : List Entry) : Event → List Entry
  | .writeHeader h => { header := h, body := [] } :: acc
  | .write b =>
    match acc with
    | [] => []
    | e :: rest => { e with body := e.body ++ b } :: rest
  | _ => acc

/-- The entries of the archive a run produced, in the order they were written. -/
def archiveEntries (log : List Event) : List Entry :=
  (log.foldl entriesStep []).reverse

/-- What the claims say about an entry: name, declared size, type and body. -/
def Entry.summary (e : Entry) : GoString × Int × TypeFlag × GoString :=
  (e.header.Name, e.header.Size, e.header.Typeflag, e.body)

/-- The header of a regular file with the given name and declared size; permission bits
and modification time are those of the file. -/
def regularHeader (name : GoString) (size : Int) (fi : FileInfo) : Header :=
  { Name := name, Linkname := [], Size := size, Typeflag := .TypeReg,
    Mode := fi.stat.perm, ModTime := fi.stat.modTime }

/-- The header of a directory with the given name: size 0, type directory. -/
def directoryHeader (name : GoString) (fi : FileInfo) : Header :=
  { Name := name, Linkname := [], Size := 0, Typeflag := .TypeDir,
    Mode := fi.stat.perm, ModTime := fi.stat.modTime }

/-- The entries read off the effects so far, most recent first. -/
def entriesAcc (log : List Event) : List Entry := log.foldl entriesStep []

/-- An entry of regular-file type is complete when its body has exactly the declared
number of bytes. -/
def Entry.Complete (e : Entry) : Prop :=
  e.header.Typeflag = .TypeReg → (e.body.length : Int) = e.header.Size

/-- The state between two entries: nothing is owed to the current entry and every entry
written so far is complete. -/
def Settled (s : State) : Prop :=
  s.nb = 0 ∧ ∀ e ∈ entriesAcc s.log, e.Complete

/-- The state while the body of an entry is streamed: the bytes still owed, `nb`, are the
declared size less the body written so far, and the earlier entries are complete. -/
def InProgress (s : State) : Prop :=
  0 ≤ s.nb ∧ ∃ e rest, entriesAcc s.log = e :: rest ∧ (∀ e1 ∈ rest, e1.Complete) ∧
    (e.header.Typeflag = .TypeReg → e.header.Size = e.body.length + s.nb)

/-- A result is fine when it is a panic or ends in a settled state. -/
def Res.Fine : Res → Prop
  | .ret _ s => Settled s
  | .panicked _ _ => True

/-- The callback `fn` made to refuse any call while body bytes are owed to the current
entry.  It serves to state that the walker never calls the callback in such a state. -/
def onlyBetweenEntries (fn : WalkFunc) : WalkFunc :=
  fun path fi err s => if s.nb = 0 then fn path fi err s else .panicked .flush s

/-- Two lists of loop steps that agree: same names, same effect from every settled state. -/
def StepsAgree (l1 l2 : List (GoString × (State → Res))) : Prop :=
  List.Forall₂ (fun a b => a.1 = b.1 ∧ ∀ s, Settled s → a.2 s = b.2 s) l1 l2

/-- A name as a directory listing gives it: not empty, without `/`, and neither `.` nor
`..`. -/
def isPlainName (name : GoString) : Bool :=
  !name.isEmpty && !name.contains '/' && name != ['.'] && name != ['.', '.']

/-- What `Clean` appends to its output buffer `out` (reversed) for the path element `name`:
a separator when the buffer holds more than the root, then the element. -/
def pushElem (rooted : Bool) (name out : GoString) : GoString :=
  name.reverse ++
    (if (rooted && out.length != 1) || (!rooted && out.length != 0) then '/' :: out else out)

/-- A root path for which the paths the walker reports are the root, a `/` and the relative
path: `Clean` leaves it unchanged, and it is neither `.` nor `/`. -/
def isCleanRoot (root : GoString) : Bool :=
  Clean root == root && root != ['.'] && root != ['/']

/-- The path `filepath.Walk` reports for the entry reached from `root` through the
directory entries `names`: each step is `Join(path, name)`, as in `filepath.walk`. -/
def walkPath (root : GoString) (names : List GoString) : GoString :=
  names.foldl (fun path name => Join [path, name]) root

mutual
/-- Every name in every directory listing of the tree is a plain name. -/
def FsNode.plainNames : FsNode → Bool
  | .node _ none => true
  | .node _ (some es) => plainEntries es
/-- Every name of the listing, and of the listings below it, is a plain name. -/
def plainEntries : List (GoString × FsNode) → Bool
  | [] => true
  | (name, child) :: rest => isPlainName name && child.plainNames && plainEntries rest
end

/-- The callback `fn` made to refuse any call on a path that is neither the root nor the
root followed by `/`.  It serves to state that the walker never reports such a path. -/
def onlyBelowRoot (root : GoString) (fn : WalkFunc) : WalkFunc :=
  fun path fi err s =>
    if path = root ∨ HasPrefix path (root ++ ['/']) = true then fn path fi err s
    else .panicked .sliceBounds s

/-! ## Concrete worlds -/

/-- The writer state right after `tar.NewWriter`. -/
def newWriter : State := { log := [], nb := 0 }

/-- A world in which every command prints `output` in one piece and exits with status 0. -/
def listingWorld (output : GoString) : World where
  args := ["stream_tar_from_xz".toList, "R".toList]
  numCPU := 4
  envThreads := []
  createOk := true
  root := .node none none
  exec := fun _ => .exited [output] 0
  openFile := fun _ => none

/-- The summary record `xz -l --robot` prints for a file of 100 uncompressed bytes. -/
def summary100 : GoString := "file\t1\t1\t64\t100\t0.640\tCRC64\t0".toList

/-- A listing as `xz -l --robot R/blob.xz` prints it: the name record, the summary
record, the totals. -/
def listing100 : GoString :=
  "name\tR/blob.xz\n".toList ++ summary100 ++ "\ntotals\t1\t1\t64\t100\t0.640\tCRC64\t0\t1\n".toList

/-- A summary record whose size field is the decimal integer `2^63`. -/
def summaryHuge : GoString := "file\t1\t1\t64\t9223372036854775808\t0.000\tCRC64\t0".toList

/-- A listing with `summaryHuge` as its summary record. -/
def listingHuge : GoString := "name\ta.xz\n".toList ++ summaryHuge ++ "\n".toList

/-- A summary record whose size field is the negative integer `-5`. -/
def summaryNegative : GoString := "file\t1\t1\t64\t-5\t0.000\tCRC64\t0".toList

/-- A listing with `summaryNegative` as its summary record. -/
def listingNegative : GoString := "name\ta.xz\n".toList ++ summaryNegative ++ "\n".toList

/-- What `lstat` reports for a regular file of the given size (mode 0644). -/
def regularStat (size : Int) : FileStat :=
  { kind := .regular, size := size, perm := 0o644, modTime := 0 }

/-- What `lstat` reports for a directory (mode 0755). -/
def directoryStat : FileStat :=
  { kind := .dir, size := 4096, perm := 0o755, modTime := 0 }

/-- What `lstat` reports for a symbolic link whose target path has `size` bytes. -/
def symlinkStat (size : Int) : FileStat :=
  { kind := .symlink, size := size, perm := 0o777, modTime := 0 }

/-- A path that is not a directory: reading it as one fails. -/
def leafNode (st : FileStat) : FsNode := .node (some st) none

/-- The tree of the concrete scenario of the specification: the root holds the directory
`sub` with the file `file.txt` (3 bytes) and the compressed file `blob.xz`.  The directory
listings are given in the order the specification names the entries. -/
def scenarioTree : FsNode :=
  .node (some directoryStat) (some [
    ("sub".toList, .node (some directoryStat) (some [("file.txt".toList, leafNode (regularStat 3))])),
    ("blob.xz".toList, leafNode (regularStat 64))])

/-- One hundred bytes `a`. -/
def hundredA : GoString := List.replicate 100 'a'

/-- The concrete scenario, run on the root path `root` with four threads: `R/blob.xz` is
the compressed form of one hundred bytes `a` (the listing reports 100, decompression writes
them in two chunks), `R/sub/file.txt` holds `abc`. -/
def scenarioWorld (root : GoString) : World where
  args := ["stream_tar_from_xz".toList, root]
  numCPU := 4
  envThreads := []
  createOk := true
  root := scenarioTree
  exec := fun argv =>
    if argv = xzListArgv "R/blob.xz".toList then .exited [listing100] 0
    else if argv = xzDecompressArgv 4 "R/blob.xz".toList then
      .exited [List.replicate 64 'a', List.replicate 36 'a'] 0
    else .launchFailed
  openFile := fun path =>
    if path = "R/sub/file.txt".toList then some { chunks := ["abc".toList], readError := false }
    else none

/-- The scenario with a decompression command that writes 99 bytes although the listing
reports 100. -/
def shortBodyWorld : World :=
  { scenarioWorld "R".toList with
    exec := fun argv =>
      if argv = xzListArgv "R/blob.xz".toList then .exited [listing100] 0
      else .exited [List.replicate 99 'a'] 0 }

/-- A world whose root holds the symbolic link `latest.xz` (to an empty compressed file:
the listing reports 0 bytes and decompression writes nothing) and the symbolic link `lnk`
(its target path has 6 bytes; the target is an empty file). -/
def symlinkWorld : World where
  args := ["stream_tar_from_xz".toList, "R".toList]
  numCPU := 4
  envThreads := []
  createOk := true
  root := .node (some directoryStat) (some [
    ("latest.xz".toList, leafNode (symlinkStat 8)),
    ("lnk".toList, leafNode (symlinkStat 6))])
  exec := fun argv =>
    if argv = xzListArgv "R/latest.xz".toList then
      .exited ["name\tR/latest.xz\nfile\t1\t0\t32\t0\t---\tCRC64\t0\n".toList] 0
    else .exited [] 0
  openFile := fun _ => some { chunks := [], readError := false }

/-- A world whose root path does not exist: `lstat` on it fails. -/
def missingRootWorld : World where
  args := ["stream_tar_from_xz".toList, "R".toList]
  numCPU := 4
  envThreads := []
  createOk := true
  root := .node none none
  exec := fun _ => .launchFailed
  openFile := fun _ => none

/-- A world whose root holds the directory `sub`, which cannot be read, and after it the
empty file `z.txt`. -/
def unreadableDirWorld : World where
  args := ["stream_tar_from_xz".toList, "R".toList]
  numCPU := 4
  envThreads := []
  createOk := true
  root := .node (some directoryStat) (some [
    ("sub".toList, .node (some directoryStat) none),
    ("z.txt".toList, leafNode (regularStat 0))])
  exec := fun _ => .launchFailed
  openFile := fun _ => some { chunks := [], readError := false }

/-- A world whose root holds an entry `gone` on which `lstat` fails. -/
def vanishedEntryWorld : World where
  args := ["stream_tar_from_xz".toList, "R".toList]
  numCPU := 4
  envThreads := []
  createOk := true
  root := .node (some directoryStat) (some [("gone".toList, .node none none)])
  exec := fun _ => .launchFailed
  openFile := fun _ => none

/-- The walker's `FileInfo` of `R/blob.xz` in the scenario. -/
def blobInfo : FileInfo := { Name := "blob.xz".toList, stat := regularStat 64 }

/-- The walker's `FileInfo` of `R/sub/file.txt` in the scenario. -/
def fileTxtInfo : FileInfo := { Name := "file.txt".toList, stat := regularStat 3 }

/-- The `FileInfo` of a directory named `d.xz`. -/
def xzDirInfo : FileInfo := { Name := "d.xz".toList, stat := directoryStat }

/-- The walker's `FileInfo` of the symbolic link `R/latest.xz`. -/
def latestInfo : FileInfo := { Name := "latest.xz".toList, stat := symlinkStat 8 }

/-- The walker's `FileInfo` of the symbolic link `R/lnk`. -/
def lnkInfo : FileInfo := { Name := "lnk".toList, stat := symlinkStat 6 }

/-- The walker's `FileInfo` of the directory `sub` of the scenario. -/
def subInfo : FileInfo := { Name := "sub".toList, stat := directoryStat }

/-! ## Number conversion: `ParseInt` returns the value of the numeral -/

theorem char_le_iff (a b : Char) : a ≤ b ↔ a.toNat ≤ b.toNat := Iff.rfl

theorem isDigit_iff (c : Char) : isDigit c = true ↔ 48 ≤ c.toNat ∧ c.toNat ≤ 57 := by
  simp [isDigit, char_le_iff]

theorem digitsValue_nil (n : Nat) : digitsValue n [] = n := rfl

theorem digitsValue_cons (n : Nat) (c : Char) (cs : GoString) :
    digitsValue n (c :: cs) = digitsValue (10 * n + (c.toNat - 48)) cs := rfl

theorem digitsValue_ge (ds : GoString) : ∀ n, n ≤ digitsValue n ds := by
  induction ds with
  | nil => intro n; rw [digitsValue_nil]
  | cons c cs ih =>
    intro n
    have := ih (10 * n + (c.toNat - 48))
    rw [digitsValue_cons]
    omega

theorem parseUintLoop_cons_digit (n : Nat) (c : Char) (cs : GoString)
    (hc : isDigit c = true) :
    parseUintLoop n (c :: cs) =
      if n ≥ maxUint64 / 10 + 1 then .error .ErrRange
      else if (n * 10 + (c.toNat - 48)) % 2 ^ 64 < n * 10 ∨
          (n * 10 + (c.toNat - 48)) % 2 ^ 64 > maxUint64 then .error .ErrRange
      else parseUintLoop ((n * 10 + (c.toNat - 48)) % 2 ^ 64) cs := by
  have hcd : ('0' ≤ c ∧ c ≤ '9') := by simpa [isDigit] using hc
  have hc' := (isDigit_iff c).1 hc
  have h0 : ('0' : Char).toNat = 48 := by decide
  have hlt : ¬ (c.toNat - 48 ≥ 10) := by omega
  simp only [parseUintLoop, hcd, and_self, if_true, h0, hlt, if_false]

theorem parseUintLoop_digits (ds : GoString) (hd : ds.all isDigit = true) :
    ∀ n, n < 2 ^ 64 →
      parseUintLoop n ds =
        if digitsValue n ds < 2 ^ 64 then .ok (digitsValue n ds) else .error .ErrRange := by
  induction ds with
  | nil => intro n hn; rw [digitsValue_nil, if_pos hn, parseUintLoop]
  | cons c cs ih =>
    intro n hn
    simp only [List.all_cons, Bool.and_eq_true] at hd
    obtain ⟨hc, hcs⟩ := hd
    have hc' := (isDigit_iff c).1 hc
    have hge := digitsValue_ge cs (10 * n + (c.toNat - 48))
    rw [parseUintLoop_cons_digit n c cs hc, digitsValue_cons]
    generalize hV : digitsValue (10 * n + (c.toNat - 48)) cs = V at hge ⊢
    generalize hd : c.toNat - 48 = d at *
    have hd9 : d ≤ 9 := by omega
    simp only [maxUint64]
    by_cases h1 : n ≥ (2 ^ 64 - 1) / 10 + 1
    · have : ¬ V < 2 ^ 64 := by omega
      rw [if_pos h1, if_neg this]
    · rw [if_neg h1]
      by_cases h2 : n * 10 + d < 2 ^ 64
      · have hmod : (n * 10 + d) % 2 ^ 64 = n * 10 + d := Nat.mod_eq_of_lt h2
        have ih' := ih hcs (n * 10 + d) h2
        have e : 10 * n + d = n * 10 + d := by omega
        rw [e] at hV
        rw [hmod, ih', hV]
        have : ¬ (n * 10 + d < n * 10 ∨ n * 10 + d > 2 ^ 64 - 1) := by omega
        rw [if_neg this]
      · have : ¬ V < 2 ^ 64 := by omega
        have hmod : (n * 10 + d) % 2 ^ 64 < n * 10 := by omega
        rw [if_pos (Or.inl hmod), if_neg this]


theorem parseUintLoop_nondigit (ds : GoString) (hd : ds.all isDigit = false) :
    ∀ n, ∃ e, parseUintLoop n ds = .error e := by
  induction ds with
  | nil => simp at hd
  | cons c cs ih =>
    intro n
    by_cases hc : isDigit c = true
    · have hcs : cs.all isDigit = false := by
        simp only [List.all_cons, hc, Bool.true_and] at hd
        exact hd
      rw [parseUintLoop_cons_digit n c cs hc]
      split
      · exact ⟨_, rfl⟩
      · split
        · exact ⟨_, rfl⟩
        · exact ih hcs _
    · have hcd : ¬ ('0' ≤ c ∧ c ≤ '9') := by simpa [isDigit] using hc
      simp only [parseUintLoop, hcd, if_false]
      split
      · exact ⟨_, rfl⟩
      · rename_i d hd1
        have hd10 : d ≥ 10 := by
          split at hd1
          · simp only [Option.some.injEq] at hd1
            omega
          · simp at hd1
        rw [if_pos hd10]
        exact ⟨_, rfl⟩

theorem ParseUint_digits (s : GoString) (hne : s ≠ []) (hd : s.all isDigit = true) :
    ParseUint s =
      if digitsValue 0 s < 2 ^ 64 then .ok (digitsValue 0 s) else .error .ErrRange := by
  have : s.isEmpty = false := by cases s <;> simp_all
  rw [ParseUint, this]
  simpa using parseUintLoop_digits s hd 0 (by norm_num)

theorem ParseUint_not_digits (s : GoString) (h : ¬ (s ≠ [] ∧ s.all isDigit = true)) :
    ∃ e, ParseUint s = .error e := by
  rw [ParseUint]
  cases s with
  | nil => exact ⟨_, rfl⟩
  | cons c cs =>
    have : (c :: cs).all isDigit = false := by
      simpa using h
    simpa using parseUintLoop_nondigit (c :: cs) this 0

theorem wrapInt64_of_mem (x : Int) (h1 : -2 ^ 63 ≤ x) (h2 : x < 2 ^ 63) : wrapInt64 x = x := by
  unfold wrapInt64
  omega

/-- The unsigned-to-signed step of `ParseInt`, for a magnitude `un` and a sign. -/
theorem parseInt_finish (neg : Bool) (un : Nat) :
    (if (!neg && decide (un ≥ 2 ^ 63)) = true then (.error .ErrRange : Except NumError Int)
      else if (neg && decide (un > 2 ^ 63)) = true then .error .ErrRange
      else .ok (if neg = true then wrapInt64 (-(wrapInt64 un)) else wrapInt64 un)) =
    (if -2 ^ 63 ≤ (if neg = true then -(un : Int) else un) ∧
        (if neg = true then -(un : Int) else un) < 2 ^ 63
      then .ok (if neg = true then -(un : Int) else un) else .error .ErrRange) := by
  cases neg
  · simp only [Bool.not_false, Bool.true_and, decide_eq_true_eq, Bool.false_and,
      Bool.false_eq_true, if_false]
    by_cases h : un ≥ 2 ^ 63
    · have : ¬ (-2 ^ 63 ≤ (un : Int) ∧ (un : Int) < 2 ^ 63) := by omega
      rw [if_pos h, if_neg this]
    · have h2 : (-2 ^ 63 ≤ (un : Int) ∧ (un : Int) < 2 ^ 63) := by omega
      rw [if_neg h, if_pos h2, wrapInt64_of_mem _ h2.1 h2.2]
  · simp only [Bool.not_true, Bool.false_and, Bool.true_and, decide_eq_true_eq,
      Bool.false_eq_true, if_false, if_true]
    by_cases h : un > 2 ^ 63
    · have : ¬ (-2 ^ 63 ≤ -(un : Int) ∧ -(un : Int) < 2 ^ 63) := by omega
      rw [if_pos h, if_neg this]
    · have h2 : (-2 ^ 63 ≤ -(un : Int) ∧ -(un : Int) < 2 ^ 63) := by omega
      have h4 : wrapInt64 (-(wrapInt64 un)) = -(un : Int) := by unfold wrapInt64; omega
      rw [if_neg h, if_pos h2, h4]

/-- `ParseInt` against the value of the numeral: it returns the value of a decimal
integer numeral that fits `int64`, and fails on everything else. -/
theorem ParseInt_toOption (s : GoString) :
    (ParseInt s).toOption =
      (decimalValue s).filter (fun v => decide (-2 ^ 63 ≤ v ∧ v < 2 ^ 63)) := by
  cases s with
  | nil => rfl
  | cons c rest =>
    have hneg : ((c == '-') = true) = (c = '-') := by simp
    simp only [ParseInt, decimalValue]
    generalize hs1 : (if (c == '+' || c == '-') = true then rest else c :: rest) = s1
    have hs1' : (if c = '+' ∨ c = '-' then rest else c :: rest) = s1 := by
      rw [← hs1]; simp
    rw [hs1']
    by_cases hd : s1 ≠ [] ∧ s1.all isDigit = true
    · rw [if_pos hd, ParseUint_digits s1 hd.1 hd.2]
      by_cases hr : digitsValue 0 s1 < 2 ^ 64
      · rw [if_pos hr]
        simp only []
        rw [parseInt_finish]; simp only [beq_iff_eq]
        by_cases hv : (-2 ^ 63 ≤ (if c = '-' then -(digitsValue 0 s1 : Int) else digitsValue 0 s1) ∧
            (if c = '-' then -(digitsValue 0 s1 : Int) else digitsValue 0 s1) < 2 ^ 63)
        · rw [if_pos hv]
          simp only [Except.toOption, Option.filter, decide_eq_true hv, if_true]
        · rw [if_neg hv]
          simp only [Except.toOption, Option.filter, decide_eq_false hv, Bool.false_eq_true,
            if_false]
      · rw [if_neg hr]
        simp only []
        rw [parseInt_finish]; simp only [beq_iff_eq]
        have h1 : ¬ (-2 ^ 63 ≤ (if c = '-' then -(maxUint64 : Int) else maxUint64) ∧
            (if c = '-' then -(maxUint64 : Int) else maxUint64) < 2 ^ 63) := by
          unfold maxUint64; split <;> omega
        have h2 : ¬ (-2 ^ 63 ≤ (if c = '-' then -(digitsValue 0 s1 : Int) else digitsValue 0 s1) ∧
            (if c = '-' then -(digitsValue 0 s1 : Int) else digitsValue 0 s1) < 2 ^ 63) := by
          split <;> omega
        rw [if_neg h1]
        simp only [Except.toOption, Option.filter, decide_eq_false h2, Bool.false_eq_true,
          if_false]
    · rw [if_neg hd]
      obtain ⟨e, he⟩ := ParseUint_not_digits s1 hd
      rw [he]
      cases e
      · simp [Except.toOption, Option.filter]
      · simp only []
        rw [parseInt_finish]; simp only [beq_iff_eq]
        have h1 : ¬ (-2 ^ 63 ≤ (if c = '-' then -(maxUint64 : Int) else maxUint64) ∧
            (if c = '-' then -(maxUint64 : Int) else maxUint64) < 2 ^ 63) := by
          unfold maxUint64; split <;> omega
        rw [if_neg h1]
        simp [Except.toOption, Option.filter]

/-! ## The size query -/

theorem Split_single (sep : Char) (l : GoString) (h : sep ∉ l) : Split sep l = [l] := by
  induction l with
  | nil => rfl
  | cons c cs ih =>
    have hc : c ≠ sep := fun e => h (by simp [e])
    have hcs : sep ∉ cs := fun m => h (List.mem_cons_of_mem _ m)
    rw [Split, if_neg hc, ih hcs]

theorem Split_line (sep : Char) (l rest : GoString) (h : sep ∉ l) :
    Split sep (l ++ sep :: rest) = l :: Split sep rest := by
  induction l with
  | nil => simp [Split]
  | cons c cs ih =>
    have hc : c ≠ sep := fun e => h (by simp [e])
    have hcs : sep ∉ cs := fun m => h (List.mem_cons_of_mem _ m)
    rw [List.cons_append, Split, if_neg hc, ih hcs]

theorem Split_lines (sep : Char) (pre : List GoString) (rest : GoString)
    (h : ∀ l ∈ pre, sep ∉ l) :
    Split sep ((pre.map (fun l => l ++ [sep])).flatten ++ rest) = pre ++ Split sep rest := by
  induction pre with
  | nil => simp
  | cons l ls ih =>
    have hl : sep ∉ l := h l (List.mem_cons_self _ _)
    have hls : ∀ l ∈ ls, sep ∉ l := fun x hx => h x (List.mem_cons_of_mem _ hx)
    simp only [List.map_cons, List.flatten_cons, List.append_assoc, List.singleton_append,
      List.cons_append, List.nil_append]
    rw [Split_line sep l _ hl, ih hls]

/-- The loop of `getXzUncompressedSize` stops at the summary record. -/
theorem findFileLine_eq (lines : List GoString) :
    findFileLine lines =
      match lines.find? (fun line => HasPrefix line "file".toList) with
      | none => .error .notFound
      | some line =>
        if (Fields line).length < 5 then .error .unexpectedFormat
        else
          match ParseInt (sizeField line) with
          | .error _ => .error .parseFailed
          | .ok size => .ok size := by
  induction lines with
  | nil => rfl
  | cons l ls ih =>
    rw [findFileLine, List.find?_cons]
    cases h : HasPrefix l "file".toList
    · simp only [Bool.false_eq_true, if_false, ih]
    · simp only [if_true, sizeField]

theorem parseXzOutput_eq (output : GoString) :
    parseXzOutput output =
      match summaryLine output with
      | none => .error .notFound
      | some line =>
        if (Fields line).length < 5 then .error .unexpectedFormat
        else
          match ParseInt (sizeField line) with
          | .error _ => .error .parseFailed
          | .ok size => .ok size := by
  rw [parseXzOutput, findFileLine_eq, summaryLine]

theorem ParseInt_ok_iff (f : GoString) (v : Int) :
    ParseInt f = .ok v ↔ decimalValue f = some v ∧ -2 ^ 63 ≤ v ∧ v < 2 ^ 63 := by
  have h := ParseInt_toOption f
  constructor
  · intro hp
    rw [hp] at h
    simp only [Except.toOption] at h
    cases hd : decimalValue f with
    | none => rw [hd] at h; simp [Option.filter] at h
    | some w =>
      rw [hd] at h
      simp only [Option.filter] at h
      split at h
      · rename_i hw
        simp only [Option.some.injEq] at h
        subst h
        exact ⟨rfl, of_decide_eq_true hw⟩
      · simp at h
  · rintro ⟨hd, hr⟩
    rw [hd] at h
    simp only [Option.filter, decide_eq_true hr, if_true] at h
    cases hp : ParseInt f with
    | error e => rw [hp] at h; simp [Except.toOption] at h
    | ok w => rw [hp] at h; simp only [Except.toOption, Option.some.injEq] at h; rw [h]

theorem summaryLine_of_lines (pre : List GoString) (line tail : GoString)
    (hpre : ∀ l ∈ pre, '\n' ∉ l ∧ HasPrefix l "file".toList = false)
    (hline : '\n' ∉ line) (hfile : HasPrefix line "file".toList = true)
    (htail : tail = [] ∨ tail.head? = some '\n') :
    summaryLine ((pre.map (fun l => l ++ ['\n'])).flatten ++ line ++ tail) = some line := by
  have hsplit : ∃ more, Split '\n' (line ++ tail) = line :: more := by
    rcases htail with h | h
    · subst h
      rw [List.append_nil, Split_single _ _ hline]
      exact ⟨[], rfl⟩
    · cases tail with
      | nil => simp at h
      | cons c t =>
        simp only [List.head?_cons, Option.some.injEq] at h
        subst h
        rw [Split_line _ _ _ hline]
        exact ⟨_, rfl⟩
  obtain ⟨more, hmore⟩ := hsplit
  rw [summaryLine, List.append_assoc, Split_lines _ _ _ (fun l hl => (hpre l hl).1), hmore,
    List.find?_append]
  have hnone : pre.find? (fun line => HasPrefix line "file".toList) = none := by
    rw [List.find?_eq_none]
    intro l hl
    rw [(hpre l hl).2]
    exact Bool.false_ne_true
  rw [hnone, Option.none_or, List.find?_cons, hfile]

theorem getXzUncompressedSize_snd (os : World) (filePath : GoString) (s : State) :
    (getXzUncompressedSize os filePath s).2 =
      match os.exec (xzListArgv filePath) with
      | .launchFailed => .error .execFailed
      | .exited stdout code =>
        if code = 0 then parseXzOutput stdout.flatten else .error .execFailed := by
  unfold getXzUncompressedSize Output
  cases os.exec (xzListArgv filePath) with
  | launchFailed => rfl
  | exited stdout code =>
    by_cases h : code = 0
    · simp only [h, if_true]
    · simp only [h, if_false]

theorem getXzUncompressedSize_log (os : World) (filePath : GoString) (s : State) :
    (getXzUncompressedSize os filePath s).1 =
      { s with log := s.log ++ [.exec (xzListArgv filePath)] } := by
  unfold getXzUncompressedSize Output
  cases os.exec (xzListArgv filePath) with
  | launchFailed => rfl
  | exited stdout code =>
    by_cases h : code = 0
    · simp only [h, if_true]
    · simp only [h, if_false]

/-- C2 (amended): whatever lines come before the summary record (none of them beginning
with `file`) and whatever text follows it, when the record has at least five fields and the
fifth is a decimal integer that fits a signed 64-bit integer, the size query returns exactly
that integer. -/
theorem getXzUncompressedSize_returns_size_field (os : World) (filePath : GoString) (s : State)
    (stdout : List GoString) (pre : List GoString) (line tail : GoString) (v : Int)
    (hexec : os.exec (xzListArgv filePath) = .exited stdout 0)
    (hout : stdout.flatten = (pre.map (fun l => l ++ ['\n'])).flatten ++ line ++ tail)
    (hpre : ∀ l ∈ pre, '\n' ∉ l ∧ HasPrefix l "file".toList = false)
    (hline : '\n' ∉ line) (hfile : HasPrefix line "file".toList = true)
    (htail : tail = [] ∨ tail.head? = some '\n')
    (hfields : 5 ≤ (Fields line).length)
    (hvalue : decimalValue (sizeField line) = some v)
    (hrange : -2 ^ 63 ≤ v ∧ v < 2 ^ 63) :
    (getXzUncompressedSize os filePath s).2 = .ok v := by
  rw [getXzUncompressedSize_snd, hexec]
  simp only [if_true]
  rw [parseXzOutput_eq, hout, summaryLine_of_lines pre line tail hpre hline hfile htail]
  have hlen : ¬ (Fields line).length < 5 := by omega
  simp only [hlen, if_false]
  rw [(ParseInt_ok_iff _ _).2 ⟨hvalue, hrange⟩]

/-- C2 on the listing of the scenario: the name record comes before the summary record,
the totals after it, and the size query returns 100. -/
theorem getXzUncompressedSize_returns_size_field_witness :
    (getXzUncompressedSize (listingWorld listing100) "R/blob.xz".toList newWriter).2 = .ok 100 :=
  getXzUncompressedSize_returns_size_field (listingWorld listing100) "R/blob.xz".toList newWriter
    [listing100] ["name\tR/blob.xz".toList] summary100
    "\ntotals\t1\t1\t64\t100\t0.640\tCRC64\t0\t1\n".toList 100
    rfl (by decide) (by decide) (by decide) (by decide) (by decide) (by decide) (by decide)
    (by decide)

/-- C2 (counterexample): the summary record has eight fields and its fifth field is the
decimal integer `2^63`, yet the size query fails instead of returning that value. -/
theorem getXzUncompressedSize_rejects_two_pow_63 :
    summaryLine listingHuge = some summaryHuge ∧
    5 ≤ (Fields summaryHuge).length ∧
    decimalValue (sizeField summaryHuge) = some 9223372036854775808 ∧
    (getXzUncompressedSize (listingWorld listingHuge) "a.xz".toList newWriter).2 =
      .error .parseFailed := by
  decide

/-- C3 (amended): the size query fails exactly when the listing command cannot be started
or exits with a non-zero status, its output has no summary record, the summary record has
fewer than five fields, or the fifth field is not a decimal integer that fits a signed
64-bit integer; in every other case it succeeds. -/
theorem getXzUncompressedSize_fails_iff (os : World) (filePath : GoString) (s : State) :
    (∃ e, (getXzUncompressedSize os filePath s).2 = .error e) ↔
      (os.exec (xzListArgv filePath) = .launchFailed ∨
       ∃ stdout code, os.exec (xzListArgv filePath) = .exited stdout code ∧
         (code ≠ 0 ∨ summaryLine stdout.flatten = none ∨
          ∃ line, summaryLine stdout.flatten = some line ∧
            ((Fields line).length < 5 ∨
             ∀ v, decimalValue (sizeField line) = some v → ¬ (-2 ^ 63 ≤ v ∧ v < 2 ^ 63)))) := by
  rw [getXzUncompressedSize_snd]
  cases hex : os.exec (xzListArgv filePath) with
  | launchFailed => simp
  | exited stdout code =>
    simp only [false_or, CmdResult.exited.injEq, reduceCtorEq]
    by_cases hc : code = 0
    · subst hc
      simp only [if_true, parseXzOutput_eq]
      constructor
      · rintro ⟨e, he⟩
        refine ⟨stdout, 0, ⟨rfl, rfl⟩, Or.inr ?_⟩
        cases hl : summaryLine stdout.flatten with
        | none => exact Or.inl rfl
        | some line =>
          right
          refine ⟨line, rfl, ?_⟩
          rw [hl] at he
          simp only at he
          by_cases h5 : (Fields line).length < 5
          · exact Or.inl h5
          · right
            intro v hv hr
            rw [if_neg h5, (ParseInt_ok_iff _ _).2 ⟨hv, hr⟩] at he
            simp at he
      · rintro ⟨stdout', code', ⟨h1, h2⟩, h⟩
        subst h1 h2
        rcases h with h | h | ⟨line, hl, h⟩
        · exact absurd rfl h
        · rw [h]; exact ⟨_, rfl⟩
        · rw [hl]
          simp only
          rcases h with h | h
          · rw [if_pos h]; exact ⟨_, rfl⟩
          · by_cases h5 : (Fields line).length < 5
            · rw [if_pos h5]; exact ⟨_, rfl⟩
            · rw [if_neg h5]
              cases hp : ParseInt (sizeField line) with
              | error e => exact ⟨_, rfl⟩
              | ok v =>
                have := (ParseInt_ok_iff _ _).1 hp
                exact absurd this.2 (h v this.1)
    · simp only [hc, if_false]
      constructor
      · intro _
        exact ⟨stdout, code, ⟨rfl, rfl⟩, Or.inl hc⟩
      · intro _
        exact ⟨_, rfl⟩

/-- C3 (counterexample): the size field of the summary record is `-5`, which is not a
non-negative integer, yet the size query succeeds and returns `-5`. -/
theorem getXzUncompressedSize_accepts_negative :
    summaryLine listingNegative = some summaryNegative ∧
    sizeField summaryNegative = "-5".toList ∧
    decimalValue (sizeField summaryNegative) = some (-5) ∧
    (getXzUncompressedSize (listingWorld listingNegative) "a.xz".toList newWriter).2 =
      .ok (-5) := by
  decide

/-! ## The callback, entry by entry -/

theorem sliceFrom_root (dirPath rel : GoString) :
    sliceFrom (dirPath ++ '/' :: rel) (dirPath.length + 1) = some rel := by
  have h : dirPath.length + 1 ≤ (dirPath ++ '/' :: rel).length := by
    simp only [List.length_append, List.length_cons]; omega
  have hd : (dirPath ++ '/' :: rel).drop (dirPath.length + 1) = rel := by
    have e : dirPath ++ '/' :: rel = (dirPath ++ ['/']) ++ rel := by simp
    rw [e]
    have hl : dirPath.length + 1 = (dirPath ++ ['/']).length := by simp
    rw [hl, List.drop_left]
  rw [sliceFrom, if_pos h, hd]

theorem descendant_ne_root (dirPath rel : GoString) : dirPath ++ '/' :: rel ≠ dirPath := by
  intro h
  have := congrArg List.length h
  simp only [List.length_append, List.length_cons] at this
  omega

theorem sliceDropLast_append (stem ext : GoString) :
    sliceDropLast (stem ++ ext) ext.length = some stem := by
  have h : ext.length ≤ (stem ++ ext).length := by simp
  rw [sliceDropLast, if_pos h]
  simp

theorem writeEvents_nil : writeEvents [] = [] := rfl

theorem writeEvents_cons (b : GoString) (bs : List GoString) :
    writeEvents (b :: bs) = (if b.isEmpty then [] else [Event.write b]) ++ writeEvents bs := by
  unfold writeEvents
  cases hb : b.isEmpty <;> simp [List.filter_cons, hb]

/-- A `Write` that fits the declared size passes all its bytes on. -/
theorem Write_fits (s : State) (b : GoString) (h : (b.length : Int) ≤ s.nb) :
    Write s b = ({ log := s.log ++ writeEvents [b], nb := s.nb - b.length }, none) := by
  have h1 : ¬ ((b.length : Int) > s.nb) := by omega
  unfold Write
  simp only [decide_eq_false h1, Bool.false_eq_true, if_false]
  cases b with
  | nil =>
    cases s
    simp [writeEvents]
  | cons c cs =>
    simp [writeEvents]

/-- A `Write` beyond the declared size is reported as `ErrWriteTooLong`. -/
theorem Write_too_long (s : State) (b : GoString) (h : s.nb < (b.length : Int)) :
    ∃ s1, Write s b = (s1, some .ErrWriteTooLong) := by
  have h1 : ((b.length : Int) > s.nb) := by omega
  unfold Write
  simp only [decide_eq_true h1, if_true]
  exact ⟨_, rfl⟩

/-- A body that fits the declared size is passed on whole. -/
theorem copyChunks_fits (chunks : List GoString) :
    ∀ s : State, (chunks.flatten.length : Int) ≤ s.nb →
      copyChunks s chunks =
        ({ log := s.log ++ writeEvents chunks, nb := s.nb - chunks.flatten.length }, none) := by
  induction chunks with
  | nil =>
    intro s _
    cases s
    simp [copyChunks, writeEvents]
  | cons b bs ih =>
    intro s h
    simp only [List.flatten_cons, List.length_append, Nat.cast_add] at h ⊢
    have hb : (b.length : Int) ≤ s.nb := by omega
    rw [copyChunks, Write_fits s b hb]
    simp only
    rw [ih _ (by simp only; omega)]
    simp only [writeEvents_cons, writeEvents_nil, List.append_nil, List.append_assoc,
      Prod.mk.injEq, State.mk.injEq, and_true, true_and]
    omega

/-- A body longer than the declared size makes the copy fail. -/
theorem copyChunks_too_long (chunks : List GoString) :
    ∀ s : State, 0 ≤ s.nb → s.nb < (chunks.flatten.length : Int) →
      ∃ s1 e, copyChunks s chunks = (s1, some e) := by
  induction chunks with
  | nil =>
    intro s h0 h
    simp only [List.flatten_nil, List.length_nil, Nat.cast_zero] at h
    omega
  | cons b bs ih =>
    intro s h0 h
    simp only [List.flatten_cons, List.length_append, Nat.cast_add] at h
    by_cases hb : (b.length : Int) ≤ s.nb
    · rw [copyChunks, Write_fits s b hb]
      simp only
      exact ih _ (by simp only; omega) (by simp only; omega)
    · obtain ⟨s1, hs1⟩ := Write_too_long s b (by omega)
      rw [copyChunks, hs1]
      exact ⟨_, _, rfl⟩

theorem WriteHeader_ok (s : State) (h : Header) (hnb : s.nb ≤ 0)
    (hcheck : checkHeader h = .ok ()) :
    WriteHeader s h =
      .ok { log := s.log ++ [.writeHeader h],
            nb := if isHeaderOnlyType h.Typeflag then 0 else h.Size } := by
  have : ¬ s.nb > 0 := by omega
  simp only [WriteHeader, flushCheck, this, if_false, hcheck]

theorem Flush_ok (s : State) (hnb : s.nb ≤ 0) :
    Flush s = .ok { s with log := s.log ++ [.flush] } := by
  have : ¬ s.nb > 0 := by omega
  simp only [Flush, flushCheck, this, if_false]

theorem Flush_missed (s : State) (hnb : 0 < s.nb) : ∃ e, Flush s = .error e := by
  simp only [Flush, flushCheck, gt_iff_lt, hnb, if_true]
  exact ⟨_, rfl⟩

/-- The directory case of the callback on a path that is the root, a `/` and `rel`: exactly
one header is written and nothing else, named `rel` followed by `/`, of size 0 and of
directory type, whatever the name of the directory and whatever error the walker hands
over. -/
theorem walkFn_directory_below (os : World) (dirPath : GoString) (xzNumThreads : Nat)
    (rel : GoString) (fi : FileInfo) (err : Option IOError) (s : State)
    (hdir : fi.stat.kind = .dir) (hnb : s.nb = 0) :
    walkFn os dirPath xzNumThreads (dirPath ++ '/' :: rel) (some fi) err s =
      .ret none
        { log := s.log ++ [.writeHeader (directoryHeader (rel ++ ['/']) fi)], nb := 0 } ∧
    (directoryHeader (rel ++ ['/']) fi).Size = 0 ∧
    (directoryHeader (rel ++ ['/']) fi).Typeflag = .TypeDir := by
  refine ⟨?_, rfl, rfl⟩
  have hisdir : fi.IsDir = true := by simp [FileInfo.IsDir, hdir]
  have hhdr : FileInfoHeader fi fi.Name = .ok (directoryHeader (fi.Name ++ ['/']) fi) := by
    simp [FileInfoHeader, hdir, directoryHeader]
  have hw := WriteHeader_ok s (directoryHeader (rel ++ ['/']) fi) (by omega)
    (by simp [checkHeader, isHeaderOnlyType, directoryHeader])
  have ht : isHeaderOnlyType (directoryHeader (rel ++ ['/']) fi).Typeflag = true := rfl
  rw [ht] at hw
  simp only [if_true] at hw
  have e : "/".toList = ['/'] := rfl
  simp only [walkFn, descendant_ne_root, if_false, sliceFrom_root, hhdr, hisdir, if_true, e]
  have e2 : ({ directoryHeader (fi.Name ++ ['/']) fi with Name := rel ++ ['/'] } : Header) =
      directoryHeader (rel ++ ['/']) fi := rfl
  rw [e2, hw]

theorem getXzUncompressedSize_eq (os : World) (filePath : GoString) (s : State) :
    getXzUncompressedSize os filePath s =
      ({ s with log := s.log ++ [.exec (xzListArgv filePath)] },
        (getXzUncompressedSize os filePath s).2) := by
  rw [← getXzUncompressedSize_log]

theorem FileInfoHeader_regular (fi : FileInfo) (link : GoString)
    (hreg : fi.stat.kind = .regular) :
    FileInfoHeader fi link = .ok (regularHeader fi.Name fi.stat.size fi) := by
  simp [FileInfoHeader, hreg, FileInfo.Size, regularHeader]

theorem IsDir_of_regular (fi : FileInfo) (hreg : fi.stat.kind = .regular) :
    fi.IsDir = false := by
  simp [FileInfo.IsDir, hreg]

theorem checkHeader_regular (name : GoString) (size : Int) (fi : FileInfo)
    (hname : HasSuffix name ['/'] = false) (hsize : 0 ≤ size) :
    checkHeader (regularHeader name size fi) = .ok () := by
  have : ¬ size < 0 := by omega
  simp [checkHeader, regularHeader, hname, isHeaderOnlyType, this]

theorem WriteHeader_regular (s : State) (name : GoString) (size : Int) (fi : FileInfo)
    (hnb : s.nb ≤ 0) (hname : HasSuffix name ['/'] = false) (hsize : 0 ≤ size) :
    WriteHeader s (regularHeader name size fi) =
      .ok { log := s.log ++ [.writeHeader (regularHeader name size fi)], nb := size } := by
  rw [WriteHeader_ok s _ hnb (checkHeader_regular name size fi hname hsize)]
  rfl

/-- The decompression command streams a body of exactly the declared size. -/
theorem Run_exact (os : World) (argv : List GoString) (s : State) (chunks : List GoString)
    (hexec : os.exec argv = .exited chunks 0)
    (hlen : (chunks.flatten.length : Int) = s.nb) :
    Run os argv s = ({ log := s.log ++ [.exec argv] ++ writeEvents chunks, nb := 0 }, false) := by
  have hfit := copyChunks_fits chunks { s with log := s.log ++ [.exec argv] }
    (by simp only; omega)
  simp only [Run, hexec, hfit]
  simp only [Prod.mk.injEq, State.mk.injEq, true_and]
  constructor
  · omega
  · rfl

/-- The compressed-file case of the callback when the decompression command writes exactly
the declared number of bytes and exits with status 0. -/
theorem walkFn_compressed_exact (os : World) (dirPath : GoString) (xzNumThreads : Nat)
    (stem ext : GoString) (fi : FileInfo) (err : Option IOError) (s : State)
    (L : Int) (chunks : List GoString)
    (hreg : fi.stat.kind = .regular)
    (hxz : HasSuffix (ToLower fi.Name) ".xz".toList = true)
    (hext : ToLower ext = ".xz".toList)
    (hstem : HasSuffix stem ['/'] = false)
    (hnb : s.nb = 0)
    (hsize : (getXzUncompressedSize os (dirPath ++ '/' :: (stem ++ ext)) s).2 = .ok L)
    (hL : 0 ≤ L)
    (hexec : os.exec (xzDecompressArgv xzNumThreads (dirPath ++ '/' :: (stem ++ ext))) =
      .exited chunks 0)
    (hlen : (chunks.flatten.length : Int) = L) :
    walkFn os dirPath xzNumThreads (dirPath ++ '/' :: (stem ++ ext)) (some fi) err s =
      .ret none
        { log := s.log ++
            [.exec (xzListArgv (dirPath ++ '/' :: (stem ++ ext))),
             .writeHeader (regularHeader stem L fi),
             .exec (xzDecompressArgv xzNumThreads (dirPath ++ '/' :: (stem ++ ext)))] ++
            writeEvents chunks ++ [.flush],
          nb := 0 } := by
  have hext3 : ext.length = 3 := by
    have := congrArg List.length hext
    simpa [ToLower] using this
  have hdrop : sliceDropLast (stem ++ ext) 3 = some stem := by
    rw [← hext3]; exact sliceDropLast_append stem ext
  have hq := getXzUncompressedSize_eq os (dirPath ++ '/' :: (stem ++ ext)) s
  rw [hsize] at hq
  have hw := WriteHeader_regular
    { s with log := s.log ++ [.exec (xzListArgv (dirPath ++ '/' :: (stem ++ ext)))] }
    stem L fi (by simp only; omega) hstem hL
  have hrun := Run_exact os (xzDecompressArgv xzNumThreads (dirPath ++ '/' :: (stem ++ ext)))
    { log := s.log ++ [.exec (xzListArgv (dirPath ++ '/' :: (stem ++ ext)))] ++
        [.writeHeader (regularHeader stem L fi)], nb := L } chunks hexec hlen
  have e2 : ({ ({ regularHeader fi.Name fi.stat.size fi with Name := stem ++ ext } : Header)
      with Name := stem, Size := L } : Header) = regularHeader stem L fi := rfl
  simp only [walkFn, descendant_ne_root, if_false, sliceFrom_root,
    FileInfoHeader_regular fi fi.Name hreg, IsDir_of_regular fi hreg, Bool.not_false,
    Bool.true_and, hxz, Bool.false_eq_true, prepareHeader, if_true, hq, hdrop, e2, hw,
    writeBody, hrun]
  rw [Flush_ok _ (by simp)]
  simp only [List.append_assoc, List.singleton_append, List.cons_append, List.nil_append]

theorem ioCopy_exact (s : State) (f : FileData) (hread : f.readError = false)
    (hlen : (f.chunks.flatten.length : Int) = s.nb) :
    ioCopy s f = ({ log := s.log ++ writeEvents f.chunks, nb := 0 }, false) := by
  have hfit := copyChunks_fits f.chunks s (by omega)
  simp only [ioCopy, hfit, hread]
  simp only [Prod.mk.injEq, State.mk.injEq, true_and, and_true]
  omega

/-- The pass-through case of the callback when the file opens, reads without error and
holds exactly the reported number of bytes. -/
theorem walkFn_plain_exact (os : World) (dirPath : GoString) (xzNumThreads : Nat)
    (rel : GoString) (fi : FileInfo) (err : Option IOError) (s : State) (f : FileData)
    (hreg : fi.stat.kind = .regular)
    (hxz : HasSuffix (ToLower fi.Name) ".xz".toList = false)
    (hrel : HasSuffix rel ['/'] = false)
    (hnb : s.nb = 0)
    (hopen : os.openFile (dirPath ++ '/' :: rel) = some f)
    (hread : f.readError = false)
    (hlen : (f.chunks.flatten.length : Int) = fi.Size) :
    walkFn os dirPath xzNumThreads (dirPath ++ '/' :: rel) (some fi) err s =
      .ret none
        { log := s.log ++ [.writeHeader (regularHeader rel fi.Size fi)] ++
            writeEvents f.chunks ++ [.flush],
          nb := 0 } ∧
    ∀ argv, Event.exec argv ∉
      [Event.writeHeader (regularHeader rel fi.Size fi)] ++ writeEvents f.chunks ++ [.flush] := by
  constructor
  · have hsz : 0 ≤ fi.Size := by rw [← hlen]; exact Int.natCast_nonneg _
    have hw := WriteHeader_regular s rel fi.Size fi (by omega) hrel hsz
    have hcopy := ioCopy_exact
      { log := s.log ++ [.writeHeader (regularHeader rel fi.Size fi)], nb := fi.Size } f hread
      hlen
    have e2 : ({ regularHeader fi.Name fi.stat.size fi with Name := rel } : Header) =
        regularHeader rel fi.Size fi := rfl
    simp only [walkFn, descendant_ne_root, if_false, sliceFrom_root,
      FileInfoHeader_regular fi fi.Name hreg, IsDir_of_regular fi hreg, Bool.not_false,
      Bool.true_and, hxz, Bool.false_eq_true, prepareHeader, e2, hw, writeBody, hopen, hcopy]
    rw [Flush_ok _ (by simp)]
  · intro argv hmem
    simp [writeEvents] at hmem

theorem xzListArgv_ne_decompress (n : Nat) (p q : GoString) :
    xzListArgv p ≠ xzDecompressArgv n q := by
  intro h
  have := congrArg List.length h
  simp [xzListArgv, xzDecompressArgv] at this

/-- C4: when the size query of a compressed entry fails, the callback panics, and between
its start and the panic it has done nothing but run the listing command: no header and no
body byte has gone to the archive writer, and the decompression command has not been run. -/
theorem walkFn_size_query_fails (os : World) (dirPath : GoString) (xzNumThreads : Nat)
    (path : GoString) (fi : FileInfo) (err : Option IOError) (s : State) (e : SizeError)
    (hroot : path ≠ dirPath)
    (hdir : fi.IsDir = false)
    (hxz : HasSuffix (ToLower fi.Name) ".xz".toList = true)
    (hfail : (getXzUncompressedSize os path s).2 = .error e) :
    ∃ p s1 extra,
      walkFn os dirPath xzNumThreads path (some fi) err s = .panicked p s1 ∧
      s1.log = s.log ++ extra ∧
      (∀ ev ∈ extra, ev = .exec (xzListArgv path)) ∧
      (∀ h, Event.writeHeader h ∉ extra) ∧
      (∀ b, Event.write b ∉ extra) ∧
      Event.exec (xzDecompressArgv xzNumThreads path) ∉ extra := by
  have key : ∃ p s1 extra,
      walkFn os dirPath xzNumThreads path (some fi) err s = .panicked p s1 ∧
      s1.log = s.log ++ extra ∧ (∀ ev ∈ extra, ev = .exec (xzListArgv path)) := by
    have hq := getXzUncompressedSize_eq os path s
    rw [hfail] at hq
    simp only [walkFn, hroot, if_false]
    cases hs : sliceFrom path (dirPath.length + 1) with
    | none => exact ⟨_, _, [], rfl, by simp, by simp⟩
    | some rel =>
      simp only
      cases hh : FileInfoHeader fi fi.Name with
      | error _ => exact ⟨_, _, [], rfl, by simp, by simp⟩
      | ok header =>
        simp only [hdir, Bool.not_false, Bool.true_and, hxz, Bool.false_eq_true, if_false,
          prepareHeader, if_true, hq]
        exact ⟨_, _, [.exec (xzListArgv path)], rfl, rfl, by simp⟩
  obtain ⟨p, s1, extra, h1, h2, h3⟩ := key
  refine ⟨p, s1, extra, h1, h2, h3, ?_, ?_, ?_⟩
  · intro h hm
    have := h3 _ hm
    simp at this
  · intro b hm
    have := h3 _ hm
    simp at this
  · intro hm
    have := h3 _ hm
    simp only [Event.exec.injEq] at this
    exact xzListArgv_ne_decompress _ _ _ this.symm

/-! ## Declared size and body length -/

theorem entriesAcc_append (log : List Event) (ev : Event) :
    entriesAcc (log ++ [ev]) = entriesStep (entriesAcc log) ev := by
  simp [entriesAcc, List.foldl_append]

theorem archiveEntries_eq (log : List Event) :
    archiveEntries log = (entriesAcc log).reverse := rfl

theorem Settled_newWriter : Settled newWriter := by
  constructor
  · rfl
  · intro e he
    simp [newWriter, entriesAcc] at he

theorem Write_inProgress (s : State) (b : GoString) (h : InProgress s) :
    InProgress (Write s b).1 := by
  obtain ⟨h0, e, rest, hacc, hrest, hsize⟩ := h
  unfold Write
  by_cases hover : (b.length : Int) > s.nb
  · simp only [decide_eq_true hover, if_true]
    have hlen : (b.take s.nb.toNat).length = s.nb.toNat := by
      rw [List.length_take]; omega
    by_cases hpos : (b.take s.nb.toNat).length > 0
    · simp only [hpos, if_true]
      refine ⟨by simp only; omega, { e with body := e.body ++ b.take s.nb.toNat }, rest, ?_,
        hrest, ?_⟩
      · simp only [entriesAcc_append, hacc, entriesStep]
      · intro ht
        have := hsize ht
        simp only [List.length_append, Nat.cast_add]
        omega
    · simp only [hpos, if_false]
      exact ⟨h0, e, rest, hacc, hrest, hsize⟩
  · simp only [decide_eq_false hover, Bool.false_eq_true, if_false]
    by_cases hpos : b.length > 0
    · simp only [hpos, if_true]
      refine ⟨by simp only; omega, { e with body := e.body ++ b }, rest, ?_, hrest, ?_⟩
      · simp only [entriesAcc_append, hacc, entriesStep]
      · intro ht
        have := hsize ht
        simp only [List.length_append, Nat.cast_add]
        omega
    · simp only [hpos, if_false]
      exact ⟨h0, e, rest, hacc, hrest, hsize⟩

theorem copyChunks_inProgress (chunks : List GoString) :
    ∀ s : State, InProgress s → InProgress (copyChunks s chunks).1 := by
  induction chunks with
  | nil => intro s h; exact h
  | cons b bs ih =>
    intro s h
    have hw := Write_inProgress s b h
    rw [copyChunks]
    cases hres : Write s b with
    | mk s1 oe =>
      rw [hres] at hw
      cases oe with
      | none => exact ih s1 hw
      | some e => exact hw

theorem InProgress_exec (s : State) (argv : List GoString) (h : InProgress s) :
    InProgress { s with log := s.log ++ [.exec argv] } := by
  obtain ⟨h0, e, rest, hacc, hrest, hsize⟩ := h
  exact ⟨h0, e, rest, by simp only [entriesAcc_append, hacc, entriesStep], hrest, hsize⟩

theorem Settled_exec (s : State) (argv : List GoString) (h : Settled s) :
    Settled { s with log := s.log ++ [.exec argv] } := by
  obtain ⟨h0, hall⟩ := h
  exact ⟨h0, by simpa only [entriesAcc_append, entriesStep] using hall⟩

theorem WriteHeader_inProgress (s s1 : State) (h : Header) (hs : Settled s)
    (hw : WriteHeader s h = .ok s1) : InProgress s1 := by
  obtain ⟨h0, hall⟩ := hs
  have hnb : ¬ s.nb > 0 := by omega
  simp only [WriteHeader, flushCheck, hnb, if_false] at hw
  cases hc : checkHeader h with
  | error e => rw [hc] at hw; simp at hw
  | ok u =>
    rw [hc] at hw
    simp only [Except.ok.injEq] at hw
    subst hw
    have hsz : h.Typeflag = .TypeReg → 0 ≤ h.Size := by
      intro ht
      unfold checkHeader at hc
      split at hc
      · simp at hc
      · split at hc
        · simp at hc
        · rename_i h2
          simp only [ht, isHeaderOnlyType, Bool.not_false, true_and, not_lt] at h2
          exact h2
    refine ⟨?_, { header := h, body := [] }, entriesAcc s.log, ?_, hall, ?_⟩
    · simp only
      split
      · exact le_refl _
      · rename_i hho
        cases ht : h.Typeflag <;> simp [ht, isHeaderOnlyType] at hho
        exact hsz ht
    · simp only [entriesAcc_append, entriesStep]
    · intro ht
      simp only at ht
      simp [ht, isHeaderOnlyType]

theorem Flush_settled (s s1 : State) (h : InProgress s) (hf : Flush s = .ok s1) :
    Settled s1 := by
  obtain ⟨h0, e, rest, hacc, hrest, hsize⟩ := h
  by_cases hnb : s.nb > 0
  · simp [Flush, flushCheck, hnb] at hf
  · simp only [Flush, flushCheck, hnb, if_false, Except.ok.injEq] at hf
    subst hf
    refine ⟨by simp only; omega, ?_⟩
    simp only [entriesAcc_append, entriesStep, hacc]
    intro e1 he1
    rcases List.mem_cons.1 he1 with h1 | h1
    · subst h1
      intro ht
      have := hsize ht
      omega
    · exact hrest e1 h1

theorem prepareHeader_settled (os : World) (isXz : Bool) (path : GoString) (header h1 : Header)
    (s s1 : State) (hs : Settled s)
    (hp : prepareHeader os isXz path header s = .ok (h1, s1)) : Settled s1 := by
  unfold prepareHeader at hp
  cases isXz with
  | false =>
    simp only [Bool.false_eq_true, if_false, Except.ok.injEq, Prod.mk.injEq] at hp
    rw [← hp.2]; exact hs
  | true =>
    simp only [if_true] at hp
    rw [getXzUncompressedSize_eq] at hp
    cases hq : (getXzUncompressedSize os path s).2 with
    | error e => rw [hq] at hp; simp at hp
    | ok L =>
      rw [hq] at hp
      simp only at hp
      cases hd : sliceDropLast header.Name 3 with
      | none => rw [hd] at hp; simp at hp
      | some name =>
        rw [hd] at hp
        simp only [Except.ok.injEq, Prod.mk.injEq] at hp
        rw [← hp.2]
        exact Settled_exec s _ hs

theorem writeBody_inProgress (os : World) (xzNumThreads : Nat) (isXz : Bool) (path : GoString)
    (s s1 : State) (hs : InProgress s)
    (hb : writeBody os xzNumThreads isXz path s = .ok s1) : InProgress s1 := by
  unfold writeBody at hb
  cases isXz with
  | true =>
    simp only [if_true] at hb
    unfold Run at hb
    cases hex : os.exec (xzDecompressArgv xzNumThreads path) with
    | launchFailed => rw [hex] at hb; simp at hb
    | exited stdout code =>
      rw [hex] at hb
      simp only at hb
      have hc := copyChunks_inProgress stdout _ (InProgress_exec s
        (xzDecompressArgv xzNumThreads path) hs)
      cases hres : copyChunks { s with log := s.log ++
          [.exec (xzDecompressArgv xzNumThreads path)] } stdout with
      | mk s2 oe =>
        rw [hres] at hb hc
        cases oe with
        | some e => simp at hb
        | none =>
          simp only at hb
          split at hb
          · simp at hb
          · rename_i s3 heq
            simp only [Prod.mk.injEq] at heq
            simp only [Except.ok.injEq] at hb
            rw [← hb, ← heq.1]
            exact hc
  | false =>
    simp only [Bool.false_eq_true, if_false] at hb
    cases ho : os.openFile path with
    | none => rw [ho] at hb; simp at hb
    | some f =>
      rw [ho] at hb
      simp only at hb
      unfold ioCopy at hb
      have hc := copyChunks_inProgress f.chunks s hs
      cases hres : copyChunks s f.chunks with
      | mk s2 oe =>
        rw [hres] at hb hc
        cases oe with
        | some e => simp at hb
        | none =>
          simp only at hb
          split at hb
          · simp at hb
          · rename_i s3 heq
            simp only [Prod.mk.injEq] at heq
            simp only [Except.ok.injEq] at hb
            rw [← hb, ← heq.1]
            exact hc

theorem WriteHeader_settled_of_headerOnly (s s1 : State) (h : Header) (hs : Settled s)
    (ht : isHeaderOnlyType h.Typeflag = true)
    (hw : WriteHeader s h = .ok s1) : Settled s1 := by
  have hp := WriteHeader_inProgress s s1 h hs hw
  obtain ⟨h0, hall⟩ := hs
  have hnb : ¬ s.nb > 0 := by omega
  simp only [WriteHeader, flushCheck, hnb, if_false] at hw
  cases hc : checkHeader h with
  | error e => rw [hc] at hw; simp at hw
  | ok u =>
    rw [hc] at hw
    simp only [Except.ok.injEq] at hw
    subst hw
    refine ⟨by simp [ht], ?_⟩
    simp only [entriesAcc_append, entriesStep]
    intro e1 he1
    rcases List.mem_cons.1 he1 with h1 | h1
    · subst h1
      intro htr
      simp only at htr
      rw [htr] at ht
      simp [isHeaderOnlyType] at ht
    · exact hall e1 h1

/-- Whatever the entry, the callback either panics or leaves the archive writer between
two entries with every entry complete. -/
theorem walkFn_fine (os : World) (dirPath : GoString) (xzNumThreads : Nat)
    (path : GoString) (fi : Option FileInfo) (err : Option IOError) (s : State)
    (hs : Settled s) : (walkFn os dirPath xzNumThreads path fi err s).Fine := by
  unfold walkFn
  by_cases hroot : path = dirPath
  · simp only [hroot, if_true]; exact hs
  · simp only [hroot, if_false]
    cases hsl : sliceFrom path (dirPath.length + 1) with
    | none => exact trivial
    | some rel =>
      simp only
      cases fi with
      | none => exact trivial
      | some fi =>
        simp only
        cases hh : FileInfoHeader fi fi.Name with
        | error e => exact trivial
        | ok header =>
          simp only
          by_cases hdir : fi.IsDir = true
          · simp only [hdir, if_true]
            have htype : header.Typeflag = .TypeDir := by
              have hk : fi.stat.kind = .dir := by simpa [FileInfo.IsDir] using hdir
              simp only [FileInfoHeader, hk, Except.ok.injEq] at hh
              rw [← hh]
            cases hw : WriteHeader s { header with Name := rel ++ "/".toList } with
            | error e => exact trivial
            | ok s1 =>
              exact WriteHeader_settled_of_headerOnly s s1 _ hs (by simp [htype, isHeaderOnlyType]) hw
          · simp only [hdir, Bool.false_eq_true, if_false]
            cases hp : prepareHeader os (!false && HasSuffix (ToLower fi.Name) ".xz".toList) path
                { header with Name := rel } s with
            | error e => exact trivial
            | ok r =>
              obtain ⟨h1, s1⟩ := r
              simp only
              have hs1 := prepareHeader_settled os _ path _ h1 s s1 hs hp
              cases hw : WriteHeader s1 h1 with
              | error e => exact trivial
              | ok s2 =>
                simp only
                have hs2 := WriteHeader_inProgress s1 s2 h1 hs1 hw
                cases hb : writeBody os xzNumThreads
                    (!false && HasSuffix (ToLower fi.Name) ".xz".toList) path s2 with
                | error e => exact trivial
                | ok s3 =>
                  simp only
                  have hs3 := writeBody_inProgress os xzNumThreads _ path s2 s3 hs2 hb
                  cases hf : Flush s3 with
                  | error e => exact trivial
                  | ok s4 => exact Flush_settled s3 s4 hs3 hf

theorem walkLoop_fine (steps : List (GoString × (State → Res)))
    (hsteps : ∀ a ∈ steps, ∀ s, Settled s → (a.2 s).Fine) :
    ∀ s, Settled s → (walkLoop steps s).Fine := by
  induction steps with
  | nil => intro s hs; exact hs
  | cons a rest ih =>
    intro s hs
    obtain ⟨name, step⟩ := a
    have h1 := hsteps (name, step) (List.mem_cons_self _ _) s hs
    have ih' := ih (fun a ha => hsteps a (List.mem_cons_of_mem _ ha))
    rw [walkLoop]
    cases hr : step s with
    | panicked p s1 => exact trivial
    | ret e s1 =>
      simp only [hr] at h1
      cases e with
      | none => exact ih' s1 h1
      | some e => exact h1

mutual
theorem walkStep_fine (fn : WalkFunc)
    (hfn : ∀ path fi err s, Settled s → (fn path fi err s).Fine) :
    ∀ (t : FsNode) (filename : GoString) (s : State), Settled s →
      (walkStep fn t filename s).Fine
  | .node none _, filename, s, hs => by
    have h1 := hfn filename none (some .lstatFailed) s hs
    rw [walkStep]
    cases hr : fn filename none (some .lstatFailed) s with
    | panicked p s1 => exact trivial
    | ret e s1 =>
      rw [hr] at h1
      cases e with
      | none => exact h1
      | some e =>
        simp only
        split <;> exact h1
  | .node (some st) entries, filename, s, hs => by
    have h1 := walk_fine fn hfn { Name := basename filename, stat := st } entries filename s hs
    rw [walkStep]
    cases hr : walk fn { Name := basename filename, stat := st } entries filename s with
    | panicked p s1 => exact trivial
    | ret e s1 =>
      rw [hr] at h1
      cases e with
      | none => exact h1
      | some e =>
        simp only
        split <;> exact h1
theorem walk_fine (fn : WalkFunc)
    (hfn : ∀ path fi err s, Settled s → (fn path fi err s).Fine) (info : FileInfo) :
    ∀ (entries : Option (List (GoString × FsNode))) (path : GoString) (s : State),
      Settled s → (walk fn info entries path s).Fine
  | none, path, s, hs => by
    rw [walk]
    split
    · exact hfn _ _ _ _ hs
    · exact hfn _ _ _ _ hs
  | some es, path, s, hs => by
    rw [walk]
    split
    · exact hfn _ _ _ _ hs
    · have h1 := hfn path (some info) none s hs
      cases hr : fn path (some info) none s with
      | panicked p s1 => exact trivial
      | ret e s1 =>
        rw [hr] at h1
        cases e with
        | some e => exact h1
        | none =>
          simp only
          apply walkLoop_fine _ _ s1 h1
          intro a ha
          have hperm := List.perm_insertionSort (fun a b : GoString × (State → Res) => a.1 ≤ b.1)
            (walkSteps fn es path)
          exact walkSteps_fine fn hfn es path a (hperm.mem_iff.1 ha)
theorem walkSteps_fine (fn : WalkFunc)
    (hfn : ∀ path fi err s, Settled s → (fn path fi err s).Fine) :
    ∀ (es : List (GoString × FsNode)) (path : GoString),
      ∀ a ∈ walkSteps fn es path, ∀ s, Settled s → (a.2 s).Fine
  | [], _, a, ha => by simp [walkSteps] at ha
  | (name, child) :: rest, path, a, ha => by
    rw [walkSteps] at ha
    rcases List.mem_cons.1 ha with h | h
    · subst h
      intro s hs
      exact walkStep_fine fn hfn child (Join [path, name]) s hs
    · exact walkSteps_fine fn hfn rest path a h
end

theorem Walk_fine (tree : FsNode) (root : GoString) (fn : WalkFunc)
    (hfn : ∀ path fi err s, Settled s → (fn path fi err s).Fine) (s : State)
    (hs : Settled s) : (Walk tree root fn s).Fine := by
  unfold Walk
  have h1 : (match tree with
      | .node none _ => fn root none (some .lstatFailed) s
      | .node (some st) entries =>
        walk fn { Name := basename root, stat := st } entries root s).Fine := by
    cases tree with
    | node lstat entries =>
      cases lstat with
      | none => exact hfn _ _ _ _ hs
      | some st => exact walk_fine fn hfn _ entries root s hs
  simp only
  split
  · rename_i s1 heq; rw [heq] at h1; exact h1
  · rename_i s1 heq; rw [heq] at h1; exact h1
  · exact h1

/-! ## The callback is only called between two entries -/

theorem StepsAgree_orderedInsert (a b : GoString × (State → Res))
    (hab : a.1 = b.1 ∧ ∀ s, Settled s → a.2 s = b.2 s) :
    ∀ l1 l2, StepsAgree l1 l2 →
      StepsAgree (List.orderedInsert (fun a b : GoString × (State → Res) => a.1 ≤ b.1) a l1)
        (List.orderedInsert (fun a b : GoString × (State → Res) => a.1 ≤ b.1) b l2) := by
  intro l1 l2 h
  induction h with
  | nil => exact List.Forall₂.cons hab List.Forall₂.nil
  | @cons x y xs ys hxy hrest ih =>
    simp only [List.orderedInsert]
    by_cases hle : a.1 ≤ x.1
    · have hle2 : b.1 ≤ y.1 := by rw [← hab.1, ← hxy.1]; exact hle
      rw [if_pos hle, if_pos hle2]
      exact List.Forall₂.cons hab (List.Forall₂.cons hxy hrest)
    · have hle2 : ¬ b.1 ≤ y.1 := by rw [← hab.1, ← hxy.1]; exact hle
      rw [if_neg hle, if_neg hle2]
      exact List.Forall₂.cons hxy ih

theorem StepsAgree_insertionSort :
    ∀ l1 l2, StepsAgree l1 l2 →
      StepsAgree (l1.insertionSort (fun a b : GoString × (State → Res) => a.1 ≤ b.1))
        (l2.insertionSort (fun a b : GoString × (State → Res) => a.1 ≤ b.1)) := by
  intro l1 l2 h
  induction h with
  | nil => exact List.Forall₂.nil
  | @cons x y xs ys hxy hrest ih =>
    simp only [List.insertionSort]
    exact StepsAgree_orderedInsert _ _ hxy _ _ ih

theorem walkLoop_agree (l1 l2 : List (GoString × (State → Res))) (h : StepsAgree l1 l2)
    (hfine : ∀ b ∈ l2, ∀ s, Settled s → (b.2 s).Fine) :
    ∀ s, Settled s → walkLoop l1 s = walkLoop l2 s := by
  induction h with
  | nil => intro s _; rfl
  | @cons x y xs ys hxy hrest ih =>
    intro s hs
    obtain ⟨n1, f1⟩ := x
    obtain ⟨n2, f2⟩ := y
    have hf : f1 s = f2 s := hxy.2 s hs
    have hfin := hfine (n2, f2) (List.mem_cons_self _ _) s hs
    rw [walkLoop, walkLoop, hf]
    cases hr : f2 s with
    | panicked p s1 => rfl
    | ret e s1 =>
      cases e with
      | some e => rfl
      | none =>
        simp only [hr] at hfin
        exact ih (fun b hb => hfine b (List.mem_cons_of_mem _ hb)) s1 hfin

mutual
theorem walkStep_onlyBetweenEntries (fn : WalkFunc)
    (hfn : ∀ path fi err s, Settled s → (fn path fi err s).Fine) :
    ∀ (t : FsNode) (filename : GoString) (s : State), Settled s →
      walkStep (onlyBetweenEntries fn) t filename s = walkStep fn t filename s
  | .node none _, filename, s, hs => by
    rw [walkStep, walkStep]
    simp only [onlyBetweenEntries, hs.1, if_true]
  | .node (some st) entries, filename, s, hs => by
    rw [walkStep, walkStep,
      walk_onlyBetweenEntries fn hfn { Name := basename filename, stat := st } entries filename s
        hs]
theorem walk_onlyBetweenEntries (fn : WalkFunc)
    (hfn : ∀ path fi err s, Settled s → (fn path fi err s).Fine) (info : FileInfo) :
    ∀ (entries : Option (List (GoString × FsNode))) (path : GoString) (s : State),
      Settled s → walk (onlyBetweenEntries fn) info entries path s = walk fn info entries path s
  | none, path, s, hs => by
    rw [walk, walk]
    simp only [onlyBetweenEntries, hs.1, if_true]
  | some es, path, s, hs => by
    rw [walk, walk]
    simp only [onlyBetweenEntries, hs.1, if_true]
    split
    · rfl
    · have h1 := hfn path (some info) none s hs
      cases hr : fn path (some info) none s with
      | panicked p s1 => rfl
      | ret e s1 =>
        rw [hr] at h1
        cases e with
        | some e => rfl
        | none =>
          simp only
          apply walkLoop_agree _ _
            (StepsAgree_insertionSort _ _ (walkSteps_onlyBetweenEntries fn hfn es path)) _ s1 h1
          intro b hb
          have hperm := List.perm_insertionSort (fun a b : GoString × (State → Res) => a.1 ≤ b.1)
            (walkSteps fn es path)
          exact walkSteps_fine fn hfn es path b (hperm.mem_iff.1 hb)
theorem walkSteps_onlyBetweenEntries (fn : WalkFunc)
    (hfn : ∀ path fi err s, Settled s → (fn path fi err s).Fine) :
    ∀ (es : List (GoString × FsNode)) (path : GoString),
      StepsAgree (walkSteps (onlyBetweenEntries fn) es path) (walkSteps fn es path)
  | [], _ => by
    rw [walkSteps, walkSteps]
    exact List.Forall₂.nil
  | (name, child) :: rest, path => by
    rw [walkSteps, walkSteps]
    exact List.Forall₂.cons
      ⟨rfl, fun s hs => walkStep_onlyBetweenEntries fn hfn child (Join [path, name]) s hs⟩
      (walkSteps_onlyBetweenEntries fn hfn rest path)
end

/-- In a run the walker calls the callback only between two entries, when no body byte is
owed (`nb = 0`): refusing every other call changes nothing. -/
theorem Walk_onlyBetweenEntries (os : World) (dirPath : GoString) (xzNumThreads : Nat)
    (tree : FsNode) (root : GoString) :
    Walk tree root (onlyBetweenEntries (walkFn os dirPath xzNumThreads)) newWriter =
      Walk tree root (walkFn os dirPath xzNumThreads) newWriter := by
  have hfn : ∀ path fi err s, Settled s → (walkFn os dirPath xzNumThreads path fi err s).Fine :=
    fun path fi err s hs => walkFn_fine os dirPath xzNumThreads path fi err s hs
  unfold Walk
  cases tree with
  | node lstat entries =>
    cases lstat with
    | none =>
      simp only [onlyBetweenEntries, Settled_newWriter.1, if_true]
    | some st =>
      simp only
      rw [walk_onlyBetweenEntries _ hfn _ entries root newWriter Settled_newWriter]

/-- Streaming a body whose length differs from the bytes still owed either fails in the
copy or leaves bytes owed. -/
theorem copyChunks_mismatch (chunks : List GoString) (s : State) (h0 : 0 ≤ s.nb)
    (hne : (chunks.flatten.length : Int) ≠ s.nb) :
    (∃ s1 e, copyChunks s chunks = (s1, some e)) ∨
    (∃ s1, copyChunks s chunks = (s1, none) ∧ 0 < s1.nb) := by
  by_cases hlt : s.nb < (chunks.flatten.length : Int)
  · exact Or.inl (copyChunks_too_long chunks s h0 hlt)
  · right
    refine ⟨_, copyChunks_fits chunks s (by omega), ?_⟩
    simp only
    omega

theorem WriteHeader_regular_inv (s s1 : State) (h : Header) (ht : h.Typeflag = .TypeReg)
    (hw : WriteHeader s h = .ok s1) :
    s1 = { log := s.log ++ [.writeHeader h], nb := h.Size } ∧ 0 ≤ h.Size := by
  unfold WriteHeader at hw
  cases hf : flushCheck s with
  | error e => rw [hf] at hw; simp at hw
  | ok s0 =>
    have hs0 : s0 = s := by
      unfold flushCheck at hf
      split at hf
      · simp at hf
      · simp only [Except.ok.injEq] at hf; exact hf.symm
    rw [hf] at hw
    simp only at hw
    cases hc : checkHeader h with
    | error e => rw [hc] at hw; simp at hw
    | ok u =>
      rw [hc] at hw
      simp only [Except.ok.injEq, ht, isHeaderOnlyType, Bool.false_eq_true, if_false] at hw
      subst hs0
      refine ⟨hw.symm, ?_⟩
      unfold checkHeader at hc
      split at hc
      · simp at hc
      · split at hc
        · simp at hc
        · rename_i h2
          simp only [ht, isHeaderOnlyType, Bool.not_false, true_and, not_lt] at h2
          exact h2

/-- The end of the callback (body, then `Flush`) after the header of a regular file has
been written: a body of another length than declared ends in a panic. -/
theorem body_mismatch_panics (os : World) (xzNumThreads : Nat) (isXz : Bool)
    (path : GoString) (s : State) (h0 : 0 ≤ s.nb)
    (hsrc : if isXz = true then
        ∃ chunks code, os.exec (xzDecompressArgv xzNumThreads path) = .exited chunks code ∧
          (chunks.flatten.length : Int) ≠ s.nb
      else ∃ f, os.openFile path = some f ∧ (f.chunks.flatten.length : Int) ≠ s.nb) :
    ∃ p s1,
      (match writeBody os xzNumThreads isXz path s with
        | .error (p, s3) => Res.panicked p s3
        | .ok s3 =>
          match Flush s3 with
          | .error _ => Res.panicked .flush s3
          | .ok s4 => Res.ret none s4) = .panicked p s1 := by
  cases isXz with
  | true =>
    simp only [if_true] at hsrc
    obtain ⟨chunks, code, hex, hne⟩ := hsrc
    simp only [writeBody, if_true, Run, hex]
    rcases copyChunks_mismatch chunks { s with log := s.log ++
        [.exec (xzDecompressArgv xzNumThreads path)] } h0 hne with ⟨s1, e, hc⟩ | ⟨s1, hc, hpos⟩
    · rw [hc]; exact ⟨_, _, rfl⟩
    · rw [hc]
      simp only
      cases hcode : (code != 0) with
      | true => exact ⟨_, _, rfl⟩
      | false =>
        simp only
        obtain ⟨e, he⟩ := Flush_missed s1 hpos
        rw [he]
        exact ⟨_, _, rfl⟩
  | false =>
    simp only [Bool.false_eq_true, if_false] at hsrc
    obtain ⟨f, hopen, hne⟩ := hsrc
    simp only [writeBody, Bool.false_eq_true, if_false, hopen, ioCopy]
    rcases copyChunks_mismatch f.chunks s h0 hne with ⟨s1, e, hc⟩ | ⟨s1, hc, hpos⟩
    · rw [hc]; exact ⟨_, _, rfl⟩
    · rw [hc]
      simp only
      cases hread : f.readError with
      | true => exact ⟨_, _, rfl⟩
      | false =>
        simp only
        obtain ⟨e, he⟩ := Flush_missed s1 hpos
        rw [he]
        exact ⟨_, _, rfl⟩

theorem walkFn_compressed_mismatch (os : World) (dirPath : GoString) (xzNumThreads : Nat)
    (path : GoString) (fi : FileInfo) (err : Option IOError) (s : State)
    (L : Int) (chunks : List GoString) (code : Nat)
    (hroot : path ≠ dirPath)
    (hreg : fi.stat.kind = .regular)
    (hxz : HasSuffix (ToLower fi.Name) ".xz".toList = true)
    (hsize : (getXzUncompressedSize os path s).2 = .ok L)
    (hexec : os.exec (xzDecompressArgv xzNumThreads path) = .exited chunks code)
    (hne : (chunks.flatten.length : Int) ≠ L) :
    ∃ p s1, walkFn os dirPath xzNumThreads path (some fi) err s = .panicked p s1 := by
  have hq := getXzUncompressedSize_eq os path s
  rw [hsize] at hq
  simp only [walkFn, hroot, if_false]
  cases hs : sliceFrom path (dirPath.length + 1) with
  | none => exact ⟨_, _, rfl⟩
  | some rel =>
    simp only [FileInfoHeader_regular fi fi.Name hreg, IsDir_of_regular fi hreg, Bool.not_false,
      Bool.true_and, hxz, Bool.false_eq_true, if_false, prepareHeader, if_true, hq]
    cases hd : sliceDropLast ({ regularHeader fi.Name fi.stat.size fi with Name := rel } :
        Header).Name 3 with
    | none => exact ⟨_, _, rfl⟩
    | some name =>
      simp only
      cases hw : WriteHeader { s with log := s.log ++ [.exec (xzListArgv path)] }
          { ({ regularHeader fi.Name fi.stat.size fi with Name := rel } : Header) with
            Name := name, Size := L } with
      | error e => exact ⟨_, _, rfl⟩
      | ok s2 =>
        simp only
        obtain ⟨hs2, hL⟩ := WriteHeader_regular_inv _ s2 _ rfl hw
        simp only at hL
        have hnb : s2.nb = L := by rw [hs2]
        exact body_mismatch_panics os xzNumThreads true path s2 (by omega)
          (by simp only [if_true]; exact ⟨chunks, code, hexec, by omega⟩)

theorem walkFn_plain_mismatch (os : World) (dirPath : GoString) (xzNumThreads : Nat)
    (path : GoString) (fi : FileInfo) (err : Option IOError) (s : State) (f : FileData)
    (hroot : path ≠ dirPath)
    (hreg : fi.stat.kind = .regular)
    (hxz : HasSuffix (ToLower fi.Name) ".xz".toList = false)
    (hopen : os.openFile path = some f)
    (hne : (f.chunks.flatten.length : Int) ≠ fi.Size) :
    ∃ p s1, walkFn os dirPath xzNumThreads path (some fi) err s = .panicked p s1 := by
  simp only [walkFn, hroot, if_false]
  cases hs : sliceFrom path (dirPath.length + 1) with
  | none => exact ⟨_, _, rfl⟩
  | some rel =>
    simp only [FileInfoHeader_regular fi fi.Name hreg, IsDir_of_regular fi hreg, Bool.not_false,
      Bool.true_and, hxz, Bool.false_eq_true, if_false, prepareHeader]
    cases hw : WriteHeader s { regularHeader fi.Name fi.stat.size fi with Name := rel } with
    | error e => exact ⟨_, _, rfl⟩
    | ok s2 =>
      simp only
      obtain ⟨hs2, hL⟩ := WriteHeader_regular_inv _ s2 _ rfl hw
      simp only at hL
      have hnb : s2.nb = fi.Size := by rw [hs2]; rfl
      exact body_mismatch_panics os xzNumThreads false path s2
        (by rw [hnb]; exact hL)
        (by simp only [Bool.false_eq_true, if_false]; exact ⟨f, hopen, by rw [hnb]; exact hne⟩)

theorem main_success_settled (os : World) (log : List Event)
    (h : main os = (.success, log)) :
    ∃ s, Settled s ∧ log = s.log ++ [.close] := by
  unfold main at h
  split at h
  · simp at h
  · split at h
    · simp at h
    · have hfine := Walk_fine os.root (os.args.getD 1 [])
        (walkFn os (os.args.getD 1 []) (xzNumThreads os))
        (fun path fi err s hs => walkFn_fine os _ _ path fi err s hs)
        { log := [], nb := 0 } Settled_newWriter
      simp only at h
      split at h
      · rename_i e s heq
        rw [heq] at hfine
        simp only [Prod.mk.injEq, true_and] at h
        have hnb : ¬ s.nb > 0 := by have := hfine.1; omega
        refine ⟨s, hfine, ?_⟩
        rw [← h]
        simp only [Close, flushCheck, hnb, if_false]
      · simp at h

theorem Write_log (s : State) (b : GoString) :
    ∃ ws, (Write s b).1.log = s.log ++ ws ∧ ∀ ev ∈ ws, ∃ b1, ev = Event.write b1 := by
  unfold Write
  simp only
  split
  · split
    · exact ⟨[_], rfl, by simp⟩
    · exact ⟨[], by simp, by simp⟩
  · split
    · exact ⟨[_], rfl, by simp⟩
    · exact ⟨[], by simp, by simp⟩

theorem copyChunks_log (chunks : List GoString) :
    ∀ s : State, ∃ ws, (copyChunks s chunks).1.log = s.log ++ ws ∧
      ∀ ev ∈ ws, ∃ b1, ev = Event.write b1 := by
  induction chunks with
  | nil => intro s; exact ⟨[], by simp [copyChunks], by simp⟩
  | cons b bs ih =>
    intro s
    obtain ⟨ws, hws, hall⟩ := Write_log s b
    rw [copyChunks]
    cases hres : Write s b with
    | mk s1 oe =>
      rw [hres] at hws
      cases oe with
      | some e => exact ⟨ws, hws, hall⟩
      | none =>
        obtain ⟨ws2, hws2, hall2⟩ := ih s1
        refine ⟨ws ++ ws2, ?_, ?_⟩
        · simp only at hws ⊢
          rw [hws2, hws, List.append_assoc]
        · intro ev hev
          rcases List.mem_append.1 hev with h | h
          · exact hall ev h
          · exact hall2 ev h

/-- What the end of the callback (body, then `Flush`) adds to the effects: the start of
the decompression command for a compressed file, then nothing but `Write`s and at most the
final `Flush`. -/
theorem body_and_flush_log (os : World) (xzNumThreads : Nat) (isXz : Bool)
    (path : GoString) (s : State) :
    ∃ tail,
      (match writeBody os xzNumThreads isXz path s with
        | .error (p, s3) => Res.panicked p s3
        | .ok s3 =>
          match Flush s3 with
          | .error _ => Res.panicked .flush s3
          | .ok s4 => Res.ret none s4).state.log =
        s.log ++ (if isXz = true then [.exec (xzDecompressArgv xzNumThreads path)] else []) ++
          tail ∧
      ∀ ev ∈ tail, (∃ b1, ev = Event.write b1) ∨ ev = Event.flush := by
  have hflush : ∀ (s3 : State) (ws : List Event) (pre : List Event),
      s3.log = s.log ++ pre ++ ws → (∀ ev ∈ ws, ∃ b1, ev = Event.write b1) →
      ∃ tail,
        (match Flush s3 with
          | .error _ => Res.panicked .flush s3
          | .ok s4 => Res.ret none s4).state.log = s.log ++ pre ++ tail ∧
        ∀ ev ∈ tail, (∃ b1, ev = Event.write b1) ∨ ev = Event.flush := by
    intro s3 ws pre hlog hall
    by_cases hnb : s3.nb > 0
    · simp only [Flush, flushCheck, hnb, if_true, Res.state]
      exact ⟨ws, hlog, fun ev hev => Or.inl (hall ev hev)⟩
    · simp only [Flush, flushCheck, hnb, if_false, Res.state]
      refine ⟨ws ++ [.flush], by rw [hlog, List.append_assoc], ?_⟩
      intro ev hev
      rcases List.mem_append.1 hev with h | h
      · exact Or.inl (hall ev h)
      · exact Or.inr (by simpa using h)
  cases isXz with
  | true =>
    simp only [writeBody, if_true, Run]
    cases hex : os.exec (xzDecompressArgv xzNumThreads path) with
    | launchFailed => exact ⟨[], by simp [Res.state], by simp⟩
    | exited stdout code =>
      obtain ⟨ws, hws, hall⟩ := copyChunks_log stdout
        { s with log := s.log ++ [.exec (xzDecompressArgv xzNumThreads path)] }
      simp only
      cases hres : copyChunks { s with log := s.log ++
          [.exec (xzDecompressArgv xzNumThreads path)] } stdout with
      | mk s2 oe =>
        rw [hres] at hws
        simp only at hws
        cases oe with
        | some e => exact ⟨ws, hws, fun ev hev => Or.inl (hall ev hev)⟩
        | none =>
          simp only
          cases hcode : (code != 0) with
          | true => exact ⟨ws, hws, fun ev hev => Or.inl (hall ev hev)⟩
          | false => exact hflush s2 ws _ hws hall
  | false =>
    simp only [writeBody, Bool.false_eq_true, if_false, List.append_nil]
    cases hopen : os.openFile path with
    | none => exact ⟨[], by simp [Res.state], by simp⟩
    | some f =>
      simp only [ioCopy]
      obtain ⟨ws, hws, hall⟩ := copyChunks_log f.chunks s
      cases hres : copyChunks s f.chunks with
      | mk s2 oe =>
        rw [hres] at hws
        simp only at hws
        cases oe with
        | some e => exact ⟨ws, hws, fun ev hev => Or.inl (hall ev hev)⟩
        | none =>
          simp only
          cases hread : f.readError with
          | true => exact ⟨ws, hws, fun ev hev => Or.inl (hall ev hev)⟩
          | false =>
            have := hflush s2 ws [] (by simpa using hws) hall
            simpa using this

theorem entriesAcc_append_list (l1 l2 : List Event) :
    entriesAcc (l1 ++ l2) = l2.foldl entriesStep (entriesAcc l1) := by
  simp [entriesAcc, List.foldl_append]

theorem foldl_entriesStep_writeEvents (chunks : List GoString) :
    ∀ (e : Entry) (rest : List Entry),
      (writeEvents chunks).foldl entriesStep (e :: rest) =
        { e with body := e.body ++ chunks.flatten } :: rest := by
  induction chunks with
  | nil => intro e rest; simp [writeEvents]
  | cons b bs ih =>
    intro e rest
    rw [writeEvents_cons, List.foldl_append]
    cases hb : b.isEmpty with
    | true =>
      have : b = [] := by simpa using hb
      subst this
      simp only [if_true, List.foldl_nil, ih, List.flatten_cons, List.nil_append]
    | false =>
      simp only [Bool.false_eq_true, if_false, List.foldl_cons, List.foldl_nil, entriesStep, ih,
        List.flatten_cons, List.append_assoc]

/-! ## Compressed and pass-through files -/

theorem archiveEntries_entry (log : List Event) (h : Header) (chunks : List GoString)
    (pre post : List Event)
    (hpre : ∀ ev ∈ pre, ∃ argv, ev = Event.exec argv)
    (hpost : ∀ ev ∈ post, (∃ argv, ev = Event.exec argv) ∨ ev = Event.flush) :
    archiveEntries (log ++ pre ++ [.writeHeader h] ++ post ++ writeEvents chunks ++ [.flush]) =
      archiveEntries log ++ [{ header := h, body := chunks.flatten }] := by
  have hskip : ∀ (evs : List Event) (acc : List Entry),
      (∀ ev ∈ evs, (∃ argv, ev = Event.exec argv) ∨ ev = Event.flush) →
      evs.foldl entriesStep acc = acc := by
    intro evs
    induction evs with
    | nil => intro acc _; rfl
    | cons ev evs ih =>
      intro acc hall
      have h1 := hall ev (List.mem_cons_self _ _)
      have h2 := ih acc (fun x hx => hall x (List.mem_cons_of_mem _ hx))
      rcases h1 with ⟨argv, rfl⟩ | rfl
      · simpa [entriesStep] using h2
      · simpa [entriesStep] using h2
  simp only [archiveEntries_eq, entriesAcc_append_list, List.foldl_cons, List.foldl_nil]
  rw [hskip pre _ (fun ev hev => Or.inl (hpre ev hev))]
  simp only [entriesStep]
  rw [hskip post _ hpost, foldl_entriesStep_writeEvents]
  simp

/-- The compressed-file case of the callback on a path that is the root, a `/` and the
relative path `stem ++ ext`: the size query, the header named `stem` of size `L` and regular
type, the decompression command, then `Write`s and at most the final `Flush`; and the whole
entry when the command writes exactly `L` bytes and exits with status 0. -/
theorem walkFn_compressed_below (os : World) (dirPath : GoString) (xzNumThreads : Nat)
    (stem ext : GoString) (fi : FileInfo) (err : Option IOError) (s : State) (L : Int)
    (hreg : fi.stat.kind = .regular)
    (hxz : HasSuffix (ToLower fi.Name) ".xz".toList = true)
    (hext : ToLower ext = ".xz".toList)
    (hstem : HasSuffix stem ['/'] = false)
    (hnb : s.nb = 0)
    (hsize : (getXzUncompressedSize os (dirPath ++ '/' :: (stem ++ ext)) s).2 = .ok L)
    (hL : 0 ≤ L) :
    (regularHeader stem L fi).Name = stem ∧ (regularHeader stem L fi).Size = L ∧
    (regularHeader stem L fi).Typeflag = .TypeReg ∧
    (∃ tail,
      (walkFn os dirPath xzNumThreads (dirPath ++ '/' :: (stem ++ ext)) (some fi) err s).state.log =
        s.log ++
          [.exec (xzListArgv (dirPath ++ '/' :: (stem ++ ext))),
           .writeHeader (regularHeader stem L fi),
           .exec (xzDecompressArgv xzNumThreads (dirPath ++ '/' :: (stem ++ ext)))] ++ tail ∧
      ∀ ev ∈ tail, (∃ b, ev = Event.write b) ∨ ev = Event.flush) ∧
    (∀ chunks : List GoString,
      os.exec (xzDecompressArgv xzNumThreads (dirPath ++ '/' :: (stem ++ ext))) =
        .exited chunks 0 →
      (chunks.flatten.length : Int) = L →
      ∃ s1,
        walkFn os dirPath xzNumThreads (dirPath ++ '/' :: (stem ++ ext)) (some fi) err s =
          .ret none s1 ∧
        s1.log = s.log ++
          [.exec (xzListArgv (dirPath ++ '/' :: (stem ++ ext))),
           .writeHeader (regularHeader stem L fi),
           .exec (xzDecompressArgv xzNumThreads (dirPath ++ '/' :: (stem ++ ext)))] ++
          writeEvents chunks ++ [.flush] ∧
        archiveEntries s1.log =
          archiveEntries s.log ++
            [{ header := regularHeader stem L fi, body := chunks.flatten }]) := by
  refine ⟨rfl, rfl, rfl, ?_, ?_⟩
  · have hext3 : ext.length = 3 := by
      have := congrArg List.length hext
      simpa [ToLower] using this
    have hdrop : sliceDropLast (stem ++ ext) 3 = some stem := by
      rw [← hext3]; exact sliceDropLast_append stem ext
    have hq := getXzUncompressedSize_eq os (dirPath ++ '/' :: (stem ++ ext)) s
    rw [hsize] at hq
    have hw := WriteHeader_regular
      { s with log := s.log ++ [.exec (xzListArgv (dirPath ++ '/' :: (stem ++ ext)))] }
      stem L fi (by simp only; omega) hstem hL
    have e2 : ({ ({ regularHeader fi.Name fi.stat.size fi with Name := stem ++ ext } : Header)
        with Name := stem, Size := L } : Header) = regularHeader stem L fi := rfl
    simp only [walkFn, descendant_ne_root, if_false, sliceFrom_root,
      FileInfoHeader_regular fi fi.Name hreg, IsDir_of_regular fi hreg, Bool.not_false,
      Bool.true_and, hxz, Bool.false_eq_true, prepareHeader, if_true, hq, hdrop, e2, hw]
    obtain ⟨tail, ht, hall⟩ := body_and_flush_log os xzNumThreads true
      (dirPath ++ '/' :: (stem ++ ext))
      { log := s.log ++ [.exec (xzListArgv (dirPath ++ '/' :: (stem ++ ext)))] ++
          [.writeHeader (regularHeader stem L fi)], nb := L }
    refine ⟨tail, ?_, hall⟩
    rw [ht]
    simp only [if_true, List.append_assoc, List.singleton_append, List.cons_append,
      List.nil_append]
  · intro chunks hexec hlen
    refine ⟨_, walkFn_compressed_exact os dirPath xzNumThreads stem ext fi err s L chunks hreg hxz
      hext hstem hnb hsize hL hexec hlen, rfl, ?_⟩
    have := archiveEntries_entry s.log (regularHeader stem L fi) chunks
      [.exec (xzListArgv (dirPath ++ '/' :: (stem ++ ext)))]
      [.exec (xzDecompressArgv xzNumThreads (dirPath ++ '/' :: (stem ++ ext)))]
      (by simp) (by simp)
    simpa only [List.append_assoc, List.singleton_append, List.cons_append, List.nil_append]
      using this

/-- The pass-through case of the callback on a path that is the root, a `/` and `rel`: the
header named `rel` with the reported size and regular type, then `Write`s and at most the
final `Flush`, no external command; and the whole entry when the file opens, reads without
error and holds exactly the reported number of bytes. -/
theorem walkFn_plain_below (os : World) (dirPath : GoString) (xzNumThreads : Nat)
    (rel : GoString) (fi : FileInfo) (err : Option IOError) (s : State)
    (hreg : fi.stat.kind = .regular)
    (hxz : HasSuffix (ToLower fi.Name) ".xz".toList = false)
    (hrel : HasSuffix rel ['/'] = false)
    (hnb : s.nb = 0)
    (hsize : 0 ≤ fi.Size) :
    (regularHeader rel fi.Size fi).Name = rel ∧
    (regularHeader rel fi.Size fi).Size = fi.Size ∧
    (∃ tail,
      (walkFn os dirPath xzNumThreads (dirPath ++ '/' :: rel) (some fi) err s).state.log =
        s.log ++ [.writeHeader (regularHeader rel fi.Size fi)] ++ tail ∧
      ∀ ev ∈ tail, (∃ b, ev = Event.write b) ∨ ev = Event.flush) ∧
    (∀ f : FileData,
      os.openFile (dirPath ++ '/' :: rel) = some f → f.readError = false →
      (f.chunks.flatten.length : Int) = fi.Size →
      ∃ s1,
        walkFn os dirPath xzNumThreads (dirPath ++ '/' :: rel) (some fi) err s = .ret none s1 ∧
        s1.log = s.log ++ [.writeHeader (regularHeader rel fi.Size fi)] ++
          writeEvents f.chunks ++ [.flush] ∧
        archiveEntries s1.log =
          archiveEntries s.log ++
            [{ header := regularHeader rel fi.Size fi, body := f.chunks.flatten }]) := by
  refine ⟨rfl, rfl, ?_, ?_⟩
  · have hw := WriteHeader_regular s rel fi.Size fi (by omega) hrel hsize
    have e2 : ({ regularHeader fi.Name fi.stat.size fi with Name := rel } : Header) =
        regularHeader rel fi.Size fi := rfl
    simp only [walkFn, descendant_ne_root, if_false, sliceFrom_root,
      FileInfoHeader_regular fi fi.Name hreg, IsDir_of_regular fi hreg, Bool.not_false,
      Bool.true_and, hxz, Bool.false_eq_true, prepareHeader, e2, hw]
    obtain ⟨tail, ht, hall⟩ := body_and_flush_log os xzNumThreads false (dirPath ++ '/' :: rel)
      { log := s.log ++ [.writeHeader (regularHeader rel fi.Size fi)], nb := fi.Size }
    refine ⟨tail, ?_, hall⟩
    rw [ht]
    simp only [Bool.false_eq_true, if_false, List.append_nil]
  · intro f hopen hread hlen
    refine ⟨_, (walkFn_plain_exact os dirPath xzNumThreads rel fi err s f hreg hxz hrel hnb hopen
      hread hlen).1, rfl, ?_⟩
    have := archiveEntries_entry s.log (regularHeader rel fi.Size fi) f.chunks [] []
      (by simp) (by simp)
    simpa only [List.append_assoc, List.singleton_append, List.cons_append, List.nil_append,
      List.append_nil] using this

/-! ## Paths below a clean root -/

theorem cleanLoop_copy (rooted : Bool) (cs : GoString) (h : '/' ∉ cs) :
    ∀ out dotdot, cleanLoop rooted true cs out dotdot = cs.reverse ++ out := by
  induction cs with
  | nil => intro out dotdot; simp [cleanLoop]
  | cons c cs ih =>
    intro out dotdot
    have hc : c ≠ '/' := fun e => h (by simp [e])
    have hcs : '/' ∉ cs := fun m => h (List.mem_cons_of_mem _ m)
    rw [cleanLoop, if_neg hc, ih hcs]
    simp

theorem isPlainName_cons (name : GoString) (h : isPlainName name = true) :
    ∃ c cs, name = c :: cs ∧ c ≠ '/' ∧ '/' ∉ cs ∧ c :: cs ≠ ['.'] ∧ c :: cs ≠ ['.', '.'] := by
  simp only [isPlainName, Bool.and_eq_true, Bool.not_eq_true', bne_iff_ne, ne_eq] at h
  obtain ⟨⟨⟨hne, hsl⟩, hdot⟩, hdotdot⟩ := h
  cases name with
  | nil => simp at hne
  | cons c cs =>
    have hmem : '/' ∉ (c :: cs) := by
      intro hm
      have : (c :: cs).contains '/' = true := by simpa using hm
      rw [this] at hsl
      exact Bool.noConfusion hsl
    exact ⟨c, cs, rfl, fun e => hmem (by simp [e]), fun m => hmem (List.mem_cons_of_mem _ m),
      hdot, hdotdot⟩

/-- `Clean` reading a plain name at the start of a path element. -/
theorem cleanLoop_plainName (rooted : Bool) (name : GoString) (h : isPlainName name = true)
    (out : GoString) (dotdot : Nat) :
    cleanLoop rooted false name out dotdot = pushElem rooted name out := by
  obtain ⟨c, cs, rfl, hc, hcs, hdot, hdotdot⟩ := isPlainName_cons name h
  rw [cleanLoop]
  · rw [if_neg hc]
    simp only [cleanLoop_copy rooted cs hcs, pushElem, List.reverse_cons, List.append_assoc,
      List.singleton_append]
  · intro h1 h2; exact hdot (by rw [h1, h2])
  · intro cs1 _ h2; exact hcs (by simp [h2])
  · intro h1 h2; exact hdotdot (by rw [h1, h2])
  · intro cs2 _ h2; exact hcs (by simp [h2])

/-- `Clean` on a path followed by `/` and a plain name: the name is appended to what `Clean`
makes of the path. -/
theorem cleanLoop_append_plainName (rooted : Bool) (name : GoString)
    (h : isPlainName name = true) :
    ∀ (inElem : Bool) (p out : GoString) (dotdot : Nat),
      cleanLoop rooted inElem (p ++ '/' :: name) out dotdot =
        pushElem rooted name (cleanLoop rooted inElem p out dotdot) := by
  intro inElem p out dotdot
  induction inElem, p, out, dotdot using cleanLoop.induct rooted with
  | case1 b out dd =>
    cases b <;> simp [cleanLoop, cleanLoop_plainName rooted name h]
  | case2 cs out dd ih => simp [cleanLoop, ih]
  | case3 c cs out dd hc ih => simp [cleanLoop, hc, ih]
  | case4 cs out dd ih => simp [cleanLoop, ih]
  | case5 out dd _ _ => simp [cleanLoop, cleanLoop_plainName rooted name h]
  | case6 out dd cs1 _ ih => simpa [cleanLoop] using ih
  | case7 out dd hlen _ _ => simp [cleanLoop, hlen, cleanLoop_plainName rooted name h]
  | case8 out dd hlen hr _ _ => simp [cleanLoop, hlen, hr, cleanLoop_plainName rooted name h]
  | case9 out dd hlen hr _ _ => simp [cleanLoop, hlen, hr, cleanLoop_plainName rooted name h]
  | case10 out dd cs2 hlen _ ih => simpa [cleanLoop, hlen] using ih
  | case11 out dd cs2 hlen hr out1 _ ih => simpa [cleanLoop, hlen, hr, out1] using ih
  | case12 out dd cs2 hlen hr _ ih => simpa [cleanLoop, hlen, hr] using ih
  | case13 out dd c cs h1 h2 h3 h4 out1 hc ih =>
    rw [List.cons_append, cleanLoop, cleanLoop]
    · rw [if_neg hc, if_neg hc]
      exact ih
    · exact h1
    · exact h2
    · exact h3
    · exact h4
    · intro hc1 hcs
      cases cs <;> simp at hcs
    · intro cs1 hc1 hcs
      cases cs with
      | nil => exact h1 hc1 rfl
      | cons x xs =>
        simp only [List.cons_append, List.cons.injEq] at hcs
        exact h2 xs hc1 (by rw [hcs.1])
    · intro hc1 hcs
      cases cs with
      | nil => simp at hcs
      | cons x xs => simp at hcs
    · intro cs2 hc1 hcs
      cases cs with
      | nil => simp at hcs
      | cons x xs =>
        cases xs with
        | nil =>
          simp only [List.cons_append, List.nil_append, List.cons.injEq] at hcs
          exact h3 hc1 (by rw [hcs.1])
        | cons y ys =>
          simp only [List.cons_append, List.cons.injEq] at hcs
          exact h4 ys hc1 (by rw [hcs.1, hcs.2.1])

theorem isCleanRoot_iff (p : GoString) :
    isCleanRoot p = true ↔ Clean p = p ∧ p ≠ ['.'] ∧ p ≠ ['/'] := by
  simp [isCleanRoot, and_assoc]

/-- `Clean` leaves a clean path followed by `/` and a plain name unchanged. -/
theorem Clean_append_plainName (p name : GoString) (hp : isCleanRoot p = true)
    (hname : isPlainName name = true) :
    Clean (p ++ '/' :: name) = p ++ '/' :: name := by
  obtain ⟨hclean, hdot, hroot⟩ := (isCleanRoot_iff p).1 hp
  cases p with
  | nil => simp [Clean] at hclean
  | cons c cs =>
    simp only [Clean, List.cons_append] at hclean ⊢
    by_cases hc : (c == '/') = true
    · simp only [hc, if_true] at hclean ⊢
      rw [cleanLoop_append_plainName true name hname]
      generalize ho : cleanLoop true false cs ['/'] 1 = o at hclean ⊢
      by_cases hoe : o.isEmpty = true
      · rw [if_pos hoe] at hclean
        exact absurd hclean.symm hdot
      · rw [if_neg hoe] at hclean
        have hlen : o.length ≠ 1 := by
          intro h1
          have : (c :: cs).length = 1 := by rw [← hclean]; simpa using h1
          have hcs : cs = [] := by simpa using this
          have hc' : c = '/' := by simpa using hc
          exact hroot (by rw [hcs, hc'])
        have hpush : pushElem true name o = name.reverse ++ '/' :: o := by
          simp [pushElem, hlen]
        rw [hpush]
        have hne : (name.reverse ++ '/' :: o).isEmpty = false := by
          cases name.reverse <;> simp
        rw [hne]
        simp only [Bool.false_eq_true, if_false, List.reverse_append, List.reverse_cons,
          List.reverse_reverse, hclean]
        simp
    · simp only [hc, Bool.false_eq_true, if_false] at hclean ⊢
      have happ := cleanLoop_append_plainName false name hname false (c :: cs) [] 0
      rw [List.cons_append] at happ
      rw [happ]
      generalize ho : cleanLoop false false (c :: cs) [] 0 = o at hclean ⊢
      by_cases hoe : o.isEmpty = true
      · rw [if_pos hoe] at hclean
        exact absurd hclean.symm hdot
      · rw [if_neg hoe] at hclean
        have hlen : o.length ≠ 0 := by
          intro h0
          exact hoe (by simpa using h0)
        have hpush : pushElem false name o = name.reverse ++ '/' :: o := by
          simp [pushElem, hlen]
        rw [hpush]
        have hne : (name.reverse ++ '/' :: o).isEmpty = false := by
          cases name.reverse <;> simp
        rw [hne]
        simp only [Bool.false_eq_true, if_false, List.reverse_append, List.reverse_cons,
          List.reverse_reverse, hclean]
        simp

/-- Below a clean path the walker's `Join(path, name)` is the path, a `/` and the name, and
that is a clean path again. -/
theorem Join_plainName (p name : GoString) (hp : isCleanRoot p = true)
    (hname : isPlainName name = true) :
    Join [p, name] = p ++ '/' :: name ∧ isCleanRoot (p ++ '/' :: name) = true := by
  have hc := Clean_append_plainName p name hp hname
  obtain ⟨hclean, hdot, hroot⟩ := (isCleanRoot_iff p).1 hp
  have hpne : p.isEmpty = false := by
    cases p with
    | nil => simp [Clean] at hclean
    | cons c cs => rfl
  obtain ⟨c, cs, hn, _⟩ := isPlainName_cons name hname
  constructor
  · simp only [Join, List.dropWhile, hpne, joinWith]
    exact hc
  · rw [isCleanRoot_iff]
    refine ⟨hc, ?_, ?_⟩
    · intro h
      have := congrArg List.length h
      rw [hn] at this
      simp at this
      omega
    · intro h
      have := congrArg List.length h
      rw [hn] at this
      simp at this
      omega

/-- Below a clean root the walker reports, for the entry reached through plain names, the
root, a `/` and the names joined by `/`. -/
theorem walkPath_eq (names : List GoString) :
    ∀ root : GoString, isCleanRoot root = true → names ≠ [] →
      (∀ x ∈ names, isPlainName x = true) →
      walkPath root names = root ++ '/' :: joinWith '/' names := by
  induction names with
  | nil => intro root _ h; exact absurd rfl h
  | cons n ns ih =>
    intro root hroot _ hall
    have hn := hall n (List.mem_cons_self _ _)
    obtain ⟨hj, hclean⟩ := Join_plainName root n hroot hn
    have hstep : walkPath root (n :: ns) = walkPath (Join [root, n]) ns := rfl
    rw [hstep, hj]
    cases ns with
    | nil => rfl
    | cons m ms =>
      rw [ih (root ++ '/' :: n) hclean (by simp)
        (fun x hx => hall x (List.mem_cons_of_mem _ hx))]
      simp [joinWith]

theorem HasPrefix_append (p q : GoString) : HasPrefix (p ++ q) p = true := by
  simp [HasPrefix]

theorem HasPrefix_trans_append (path root q : GoString)
    (h : HasPrefix path (root ++ ['/']) = true) :
    HasPrefix (path ++ q) (root ++ ['/']) = true := by
  simp only [HasPrefix, List.isPrefixOf_iff_prefix] at h ⊢
  exact h.trans (List.prefix_append _ _)

/-- A path below the root stays below the root when a name is joined to it. -/
theorem below_Join (root path name : GoString) (hpath : isCleanRoot path = true)
    (hbelow : path = root ∨ HasPrefix path (root ++ ['/']) = true)
    (hname : isPlainName name = true) :
    isCleanRoot (Join [path, name]) = true ∧
      (Join [path, name] = root ∨ HasPrefix (Join [path, name]) (root ++ ['/']) = true) := by
  obtain ⟨hj, hclean⟩ := Join_plainName path name hpath hname
  rw [hj]
  refine ⟨hclean, Or.inr ?_⟩
  rcases hbelow with h | h
  · subst h
    have e : path ++ '/' :: name = (path ++ ['/']) ++ name := by simp
    rw [e]
    exact HasPrefix_append _ _
  · exact HasPrefix_trans_append path root _ h

mutual
theorem walkStep_onlyBelowRoot (root : GoString) (fn : WalkFunc) :
    ∀ (t : FsNode) (filename : GoString), t.plainNames = true →
      isCleanRoot filename = true →
      (filename = root ∨ HasPrefix filename (root ++ ['/']) = true) →
      walkStep (onlyBelowRoot root fn) t filename = walkStep fn t filename
  | .node none _, filename, _, _, hbelow => by
    funext s
    rw [walkStep, walkStep]
    simp only [onlyBelowRoot, hbelow, if_true]
  | .node (some st) entries, filename, htree, hclean, hbelow => by
    funext s
    rw [walkStep, walkStep,
      walk_onlyBelowRoot root fn { Name := basename filename, stat := st } entries filename
        (by cases entries with
            | none => trivial
            | some es => simpa [FsNode.plainNames] using htree)
        hclean hbelow]
theorem walk_onlyBelowRoot (root : GoString) (fn : WalkFunc) (info : FileInfo) :
    ∀ (entries : Option (List (GoString × FsNode))) (path : GoString),
      (match entries with
        | none => True
        | some es => plainEntries es = true) →
      isCleanRoot path = true →
      (path = root ∨ HasPrefix path (root ++ ['/']) = true) →
      walk (onlyBelowRoot root fn) info entries path = walk fn info entries path
  | none, path, _, _, hbelow => by
    funext s
    rw [walk, walk]
    simp only [onlyBelowRoot, hbelow, if_true]
  | some es, path, htree, hclean, hbelow => by
    funext s
    rw [walk, walk, walkSteps_onlyBelowRoot root fn es path htree hclean hbelow]
    simp only [onlyBelowRoot, hbelow, if_true]
theorem walkSteps_onlyBelowRoot (root : GoString) (fn : WalkFunc) :
    ∀ (es : List (GoString × FsNode)) (path : GoString), plainEntries es = true →
      isCleanRoot path = true →
      (path = root ∨ HasPrefix path (root ++ ['/']) = true) →
      walkSteps (onlyBelowRoot root fn) es path = walkSteps fn es path
  | [], _, _, _, _ => by rw [walkSteps, walkSteps]
  | (name, child) :: rest, path, htree, hclean, hbelow => by
    simp only [plainEntries, Bool.and_eq_true] at htree
    obtain ⟨⟨hname, hchild⟩, hrest⟩ := htree
    obtain ⟨hc2, hb2⟩ := below_Join root path name hclean hbelow hname
    rw [walkSteps, walkSteps, walkStep_onlyBelowRoot root fn child (Join [path, name]) hchild hc2 hb2,
      walkSteps_onlyBelowRoot root fn rest path hrest hclean hbelow]
end

/-- From a clean root, over a tree whose listings hold plain names, the walker calls the
callback only on the root and on paths that are the root, a `/` and a relative path:
refusing every other call changes nothing, whatever the callback. -/
theorem Walk_onlyBelowRoot (tree : FsNode) (root : GoString) (fn : WalkFunc) (s : State)
    (hroot : isCleanRoot root = true) (htree : tree.plainNames = true) :
    Walk tree root (onlyBelowRoot root fn) s = Walk tree root fn s := by
  unfold Walk
  cases tree with
  | node lstat entries =>
    cases lstat with
    | none => simp only [onlyBelowRoot, true_or, if_true]
    | some st =>
      simp only
      rw [walk_onlyBelowRoot root fn _ entries root
        (by cases entries with
            | none => trivial
            | some es => simpa [FsNode.plainNames] using htree)
        hroot (Or.inl rfl)]

theorem joinWith_getLast (names : List GoString) :
    names ≠ [] → (∀ x ∈ names, isPlainName x = true) →
      HasSuffix (joinWith '/' names) ['/'] = false := by
  induction names with
  | nil => intro h; exact absurd rfl h
  | cons n ns ih =>
    intro _ hall
    obtain ⟨c, cs, hn, hc, hcs, _⟩ := isPlainName_cons n (hall n (List.mem_cons_self _ _))
    cases ns with
    | nil =>
      simp only [joinWith, HasSuffix]
      rw [Bool.eq_false_iff]
      intro h
      rw [List.isSuffixOf_iff_suffix] at h
      obtain ⟨t, ht⟩ := h
      have hmem : '/' ∈ n := by rw [← ht]; simp
      rw [hn] at hmem
      rcases List.mem_cons.1 hmem with h1 | h1
      · exact hc h1.symm
      · exact hcs h1
    | cons m ms =>
      have ih' := ih (by simp) (fun x hx => hall x (List.mem_cons_of_mem _ hx))
      simp only [HasSuffix] at ih' ⊢
      rw [Bool.eq_false_iff] at ih' ⊢
      intro h
      apply ih'
      rw [List.isSuffixOf_iff_suffix] at h ⊢
      have e : joinWith '/' (n :: m :: ms) = (n ++ ['/']) ++ joinWith '/' (m :: ms) := by
        simp [joinWith]
      rw [e] at h
      obtain ⟨t, ht⟩ := h
      have hne : joinWith '/' (m :: ms) ≠ [] := by
        obtain ⟨c2, cs2, hm, _⟩ := isPlainName_cons m (hall m (by simp))
        cases ms with
        | nil => simp [joinWith, hm]
        | cons k ks => simp [joinWith, hm]
      obtain ⟨init, last, hil⟩ : ∃ init last, joinWith '/' (m :: ms) = init ++ [last] := by
        exact ⟨_, _, (List.dropLast_append_getLast hne).symm⟩
      rw [hil, ← List.append_assoc] at ht
      have hlast := List.append_inj_right' ht rfl
      have : last = '/' := by simpa using hlast.symm
      rw [hil, this]
      exact ⟨init, rfl⟩

/-- The path of an entry is `Join` of the path of its directory and its name. -/
theorem walkPath_append (root : GoString) (names : List GoString) (name : GoString) :
    walkPath root (names ++ [name]) = Join [walkPath root names, name] := by
  simp [walkPath, List.foldl_append]

/-- The loop of `filepath.walk` visits the entry `name` of the directory `path` on the path
`walkPath path [name]`. -/
theorem walkSteps_cons (fn : WalkFunc) (name : GoString) (child : FsNode)
    (rest : List (GoString × FsNode)) (path : GoString) :
    walkSteps fn ((name, child) :: rest) path =
      (name, walkStep fn child (walkPath path [name])) :: walkSteps fn rest path := by
  rw [walkSteps]
  rfl

/-! ## Entries below a clean root -/

/-- For a root path that `Clean` leaves unchanged (neither `.` nor `/`) and a directory
reached from it through plain names, the callback, called on the path the walker reports,
writes exactly one header and nothing else: the name is the relative path (the names joined
by `/`) followed by `/`, the size 0, the type directory.  Neither the name of the directory
nor an error handed over by the walker changes this. -/
theorem walkFn_directory_cleanRoot (os : World) (dirPath : GoString) (xzNumThreads : Nat)
    (names : List GoString) (fi : FileInfo) (err : Option IOError) (s : State)
    (hroot : isCleanRoot dirPath = true)
    (hne : names ≠ [])
    (hnames : ∀ x ∈ names, isPlainName x = true)
    (hdir : fi.stat.kind = .dir) (hnb : s.nb = 0) :
    walkFn os dirPath xzNumThreads (walkPath dirPath names) (some fi) err s =
      .ret none
        { log := s.log ++ [.writeHeader (directoryHeader (joinWith '/' names ++ ['/']) fi)],
          nb := 0 } ∧
    (directoryHeader (joinWith '/' names ++ ['/']) fi).Size = 0 ∧
    (directoryHeader (joinWith '/' names ++ ['/']) fi).Typeflag = .TypeDir := by
  rw [walkPath_eq names dirPath hroot hne hnames]
  exact walkFn_directory_below os dirPath xzNumThreads (joinWith '/' names) fi err s hdir hnb

/-- The directory case on a directory named `d.xz` that the walker reports with a read
error: one header named `d.xz/`, no size query, no body. -/
theorem walkFn_directory_xz_name :
    walkFn (scenarioWorld "R".toList) "R".toList 4 (walkPath "R".toList ["d.xz".toList])
        (some xzDirInfo) (some .readDirFailed) newWriter =
      .ret none
        { log := newWriter.log ++
            [.writeHeader (directoryHeader (joinWith '/' ["d.xz".toList] ++ ['/']) xzDirInfo)],
          nb := 0 } :=
  (walkFn_directory_cleanRoot (scenarioWorld "R".toList) "R".toList 4 ["d.xz".toList] xzDirInfo
    (some .readDirFailed) newWriter (by decide) (by decide) (by decide) rfl rfl).1

/-- C7 (the code at a root path with a trailing slash): for the root `R/` the walker
reports the directory `sub` as `R/sub`, and the one header the callback writes for it is
named `ub/`, not `sub/`: the name is cut out of the path at `len(root)+1`.  The archive of
the scenario holds the directory under that name. -/
theorem walkFn_directory_unclean_root :
    isCleanRoot "R/".toList = false ∧
    walkPath "R/".toList ["sub".toList] = "R/sub".toList ∧
    walkFn (scenarioWorld "R/".toList) "R/".toList 4 (walkPath "R/".toList ["sub".toList])
        (some subInfo) none newWriter =
      .ret none { log := [.writeHeader (directoryHeader "ub/".toList subInfo)], nb := 0 } ∧
    ("ub/".toList, (0 : Int), TypeFlag.TypeDir, ([] : GoString)) ∈
      (archiveEntries (main (scenarioWorld "R/".toList)).2).map Entry.summary ∧
    ("sub/".toList, (0 : Int), TypeFlag.TypeDir, ([] : GoString)) ∉
      (archiveEntries (main (scenarioWorld "R/".toList)).2).map Entry.summary := by
  decide!

/-- C1 (amended): for a root path that `Clean` leaves unchanged (neither `.` nor `/`) and a
regular file reached from it through plain names, whose name ends with `.xz` in any letter
case, whose relative path (the names joined by `/`) is `stem ++ ext` with `ext` the suffix
and `stem` not ending with `/`, and whose size query returns `L ≥ 0`, the callback, called
on the path the walker reports, runs the size query, writes the header (name: the relative
path with the suffix removed; size `L`; type regular) and runs
`xz -d -c --threads <xzNumThreads> path` with its output going to the archive; what follows
is `Write`s and at most the final `Flush`.  When that command writes exactly `L` bytes and
exits with status 0, the callback returns and the entry added to the archive is that header
with the output of the command as its body.  The callback starts between two entries
(`s.nb = 0`), as at every call in a run. -/
theorem walkFn_compressed (os : World) (dirPath : GoString) (xzNumThreads : Nat)
    (names : List GoString) (stem ext : GoString) (fi : FileInfo) (err : Option IOError)
    (s : State) (L : Int)
    (hroot : isCleanRoot dirPath = true)
    (hne : names ≠ [])
    (hnames : ∀ x ∈ names, isPlainName x = true)
    (hrel : joinWith '/' names = stem ++ ext)
    (hreg : fi.stat.kind = .regular)
    (hxz : HasSuffix (ToLower fi.Name) ".xz".toList = true)
    (hext : ToLower ext = ".xz".toList)
    (hstem : HasSuffix stem ['/'] = false)
    (hnb : s.nb = 0)
    (hsize : (getXzUncompressedSize os (walkPath dirPath names) s).2 = .ok L)
    (hL : 0 ≤ L) :
    (regularHeader stem L fi).Name = stem ∧ (regularHeader stem L fi).Size = L ∧
    (regularHeader stem L fi).Typeflag = .TypeReg ∧
    (∃ tail,
      (walkFn os dirPath xzNumThreads (walkPath dirPath names) (some fi) err s).state.log =
        s.log ++
          [.exec (xzListArgv (walkPath dirPath names)),
           .writeHeader (regularHeader stem L fi),
           .exec (xzDecompressArgv xzNumThreads (walkPath dirPath names))] ++ tail ∧
      ∀ ev ∈ tail, (∃ b, ev = Event.write b) ∨ ev = Event.flush) ∧
    (∀ chunks : List GoString,
      os.exec (xzDecompressArgv xzNumThreads (walkPath dirPath names)) = .exited chunks 0 →
      (chunks.flatten.length : Int) = L →
      ∃ s1,
        walkFn os dirPath xzNumThreads (walkPath dirPath names) (some fi) err s =
          .ret none s1 ∧
        s1.log = s.log ++
          [.exec (xzListArgv (walkPath dirPath names)),
           .writeHeader (regularHeader stem L fi),
           .exec (xzDecompressArgv xzNumThreads (walkPath dirPath names))] ++
          writeEvents chunks ++ [.flush] ∧
        archiveEntries s1.log =
          archiveEntries s.log ++
            [{ header := regularHeader stem L fi, body := chunks.flatten }]) := by
  have hp : walkPath dirPath names = dirPath ++ '/' :: (stem ++ ext) := by
    rw [walkPath_eq names dirPath hroot hne hnames, hrel]
  rw [hp] at hsize ⊢
  exact walkFn_compressed_below os dirPath xzNumThreads stem ext fi err s L hreg hxz hext hstem
    hnb hsize hL

/-- C1 on `R/blob.xz` of the scenario: the listing reports 100 bytes and the decompression
command writes them in two chunks. -/
theorem walkFn_compressed_witness :
    ∃ s1,
      walkFn (scenarioWorld "R".toList) "R".toList 4
          (walkPath "R".toList ["blob.xz".toList]) (some blobInfo) none newWriter =
        .ret none s1 ∧
      s1.log = newWriter.log ++
        [.exec (xzListArgv (walkPath "R".toList ["blob.xz".toList])),
         .writeHeader (regularHeader "blob".toList 100 blobInfo),
         .exec (xzDecompressArgv 4 (walkPath "R".toList ["blob.xz".toList]))] ++
        writeEvents [List.replicate 64 'a', List.replicate 36 'a'] ++ [.flush] ∧
      archiveEntries s1.log =
        archiveEntries newWriter.log ++
          [{ header := regularHeader "blob".toList 100 blobInfo,
             body := [List.replicate 64 'a', List.replicate 36 'a'].flatten }] :=
  (walkFn_compressed (scenarioWorld "R".toList) "R".toList 4 ["blob.xz".toList] "blob".toList
    ".xz".toList blobInfo none newWriter 100
    (by decide) (by decide) (by decide) (by decide) rfl (by decide) (by decide) (by decide) rfl
    (by decide) (by decide)).2.2.2.2
    [List.replicate 64 'a', List.replicate 36 'a'] (by decide) (by decide)

/-- C8 (amended): for a root path that `Clean` leaves unchanged (neither `.` nor `/`) and a
regular file reached from it through plain names, whose name does not end with `.xz` in any
letter case and whose reported size is not negative, the callback, called on the path the
walker reports, writes the header (name: the relative path, the names joined by `/`,
unchanged; size: the size the file system reported; type regular) and what follows is
`Write`s and at most the final `Flush`: no external command is run.  When the file opens,
reads without error and holds exactly the reported number of bytes, the callback returns and
the entry added to the archive is that header with the raw bytes of the file as its body,
followed by a flush.  The callback starts between two entries (`s.nb = 0`), as at every call
in a run. -/
theorem walkFn_plain (os : World) (dirPath : GoString) (xzNumThreads : Nat)
    (names : List GoString) (fi : FileInfo) (err : Option IOError) (s : State)
    (hroot : isCleanRoot dirPath = true)
    (hne : names ≠ [])
    (hnames : ∀ x ∈ names, isPlainName x = true)
    (hreg : fi.stat.kind = .regular)
    (hxz : HasSuffix (ToLower fi.Name) ".xz".toList = false)
    (hnb : s.nb = 0)
    (hsize : 0 ≤ fi.Size) :
    (regularHeader (joinWith '/' names) fi.Size fi).Name = joinWith '/' names ∧
    (regularHeader (joinWith '/' names) fi.Size fi).Size = fi.Size ∧
    (regularHeader (joinWith '/' names) fi.Size fi).Typeflag = .TypeReg ∧
    (∃ tail,
      (walkFn os dirPath xzNumThreads (walkPath dirPath names) (some fi) err s).state.log =
        s.log ++ [.writeHeader (regularHeader (joinWith '/' names) fi.Size fi)] ++ tail ∧
      ∀ ev ∈ tail, (∃ b, ev = Event.write b) ∨ ev = Event.flush) ∧
    (∀ f : FileData,
      os.openFile (walkPath dirPath names) = some f → f.readError = false →
      (f.chunks.flatten.length : Int) = fi.Size →
      ∃ s1,
        walkFn os dirPath xzNumThreads (walkPath dirPath names) (some fi) err s =
          .ret none s1 ∧
        s1.log = s.log ++ [.writeHeader (regularHeader (joinWith '/' names) fi.Size fi)] ++
          writeEvents f.chunks ++ [.flush] ∧
        archiveEntries s1.log =
          archiveEntries s.log ++
            [{ header := regularHeader (joinWith '/' names) fi.Size fi,
               body := f.chunks.flatten }]) := by
  have hp := walkPath_eq names dirPath hroot hne hnames
  have hrel := joinWith_getLast names hne hnames
  rw [hp]
  obtain ⟨h1, h2, h3, h4⟩ := walkFn_plain_below os dirPath xzNumThreads (joinWith '/' names) fi
    err s hreg hxz hrel hnb hsize
  exact ⟨h1, h2, rfl, h3, h4⟩

/-- C8 on `R/sub/file.txt` of the scenario, a file of three bytes. -/
theorem walkFn_plain_witness :
    ∃ s1,
      walkFn (scenarioWorld "R".toList) "R".toList 4
          (walkPath "R".toList ["sub".toList, "file.txt".toList]) (some fileTxtInfo) none
          newWriter = .ret none s1 ∧
      s1.log = newWriter.log ++
        [.writeHeader
          (regularHeader (joinWith '/' ["sub".toList, "file.txt".toList]) fileTxtInfo.Size
            fileTxtInfo)] ++
        writeEvents ["abc".toList] ++ [.flush] ∧
      archiveEntries s1.log =
        archiveEntries newWriter.log ++
          [{ header :=
               regularHeader (joinWith '/' ["sub".toList, "file.txt".toList]) fileTxtInfo.Size
                 fileTxtInfo,
             body := ["abc".toList].flatten }] :=
  (walkFn_plain (scenarioWorld "R".toList) "R".toList 4 ["sub".toList, "file.txt".toList]
    fileTxtInfo none newWriter
    (by decide) (by decide) (by decide) rfl (by decide) rfl (by decide)).2.2.2.2
    { chunks := ["abc".toList], readError := false } (by decide) rfl (by decide)

/-! ## The claims on concrete trees -/

/-- C1 (counterexample): `R/latest.xz` is a symbolic link, hence a non-directory entry
whose name ends with `.xz`, and its size query returns 0; the header the callback writes
for it has the type of a symbolic link, not of a regular file. -/
theorem walkFn_compressed_symlink :
    latestInfo.IsDir = false ∧
    HasSuffix (ToLower latestInfo.Name) ".xz".toList = true ∧
    (getXzUncompressedSize symlinkWorld "R/latest.xz".toList newWriter).2 = .ok 0 ∧
    walkFn symlinkWorld "R".toList 4 "R/latest.xz".toList (some latestInfo) none newWriter =
      .ret none
        { log :=
            [.exec (xzListArgv "R/latest.xz".toList),
             .writeHeader
               { Name := "latest".toList, Linkname := "latest.xz".toList, Size := 0,
                 Typeflag := .TypeSymlink, Mode := 0o777, ModTime := 0 },
             .exec (xzDecompressArgv 4 "R/latest.xz".toList),
             .flush],
          nb := 0 } := by
  decide

/-- C8 (counterexample): `R/lnk` is a symbolic link, hence a non-directory entry whose name
does not end with `.xz`; the file system reports size 6 for it, but the header the callback
writes declares size 0 (and the type of a symbolic link). -/
theorem walkFn_plain_symlink :
    lnkInfo.IsDir = false ∧
    HasSuffix (ToLower lnkInfo.Name) ".xz".toList = false ∧
    lnkInfo.Size = 6 ∧
    walkFn symlinkWorld "R".toList 4 "R/lnk".toList (some lnkInfo) none newWriter =
      .ret none
        { log :=
            [.writeHeader
               { Name := "lnk".toList, Linkname := "lnk".toList, Size := 0,
                 Typeflag := .TypeSymlink, Mode := 0o777, ModTime := 0 },
             .flush],
          nb := 0 } := by
  decide

/-- C4 on a compressed file whose listing has no summary record. -/
theorem walkFn_size_query_fails_witness :
    ∃ p s1 extra,
      walkFn (listingWorld "no such file".toList) "R".toList 4 "R/a.xz".toList
        (some { Name := "a.xz".toList, stat := regularStat 10 }) none newWriter =
          .panicked p s1 ∧
      s1.log = newWriter.log ++ extra ∧
      (∀ ev ∈ extra, ev = .exec (xzListArgv "R/a.xz".toList)) ∧
      (∀ h, Event.writeHeader h ∉ extra) ∧
      (∀ b, Event.write b ∉ extra) ∧
      Event.exec (xzDecompressArgv 4 "R/a.xz".toList) ∉ extra :=
  walkFn_size_query_fails (listingWorld "no such file".toList) "R".toList 4 "R/a.xz".toList
    { Name := "a.xz".toList, stat := regularStat 10 } none newWriter .notFound
    (by decide) (by decide) (by decide) (by decide)

/-- C5: a regular-file entry whose streamed body has another length than the header
declares, be it shorter or longer, makes the callback panic, for a compressed file (the
output of the decompression command against the size the listing reported) and for any
other file (the bytes read against the size the file system reported); and in a run
that ends with success, the body of every entry of regular-file type has exactly the
declared length. -/
theorem size_mismatch_is_fatal (os : World) :
    (∀ (dirPath : GoString) (xzNumThreads : Nat) (path : GoString) (fi : FileInfo)
        (err : Option IOError) (s : State) (L : Int) (chunks : List GoString) (code : Nat),
      path ≠ dirPath → fi.stat.kind = .regular →
      HasSuffix (ToLower fi.Name) ".xz".toList = true →
      (getXzUncompressedSize os path s).2 = .ok L →
      os.exec (xzDecompressArgv xzNumThreads path) = .exited chunks code →
      (chunks.flatten.length : Int) ≠ L →
      ∃ p s1, walkFn os dirPath xzNumThreads path (some fi) err s = .panicked p s1) ∧
    (∀ (dirPath : GoString) (xzNumThreads : Nat) (path : GoString) (fi : FileInfo)
        (err : Option IOError) (s : State) (f : FileData),
      path ≠ dirPath → fi.stat.kind = .regular →
      HasSuffix (ToLower fi.Name) ".xz".toList = false →
      os.openFile path = some f →
      (f.chunks.flatten.length : Int) ≠ fi.Size →
      ∃ p s1, walkFn os dirPath xzNumThreads path (some fi) err s = .panicked p s1) ∧
    (∀ log, main os = (.success, log) →
      ∀ e ∈ archiveEntries log, e.header.Typeflag = .TypeReg →
        (e.body.length : Int) = e.header.Size) := by
  refine ⟨?_, ?_, ?_⟩
  · intro dirPath n path fi err s L chunks code hroot hreg hxz hsize hexec hne
    exact walkFn_compressed_mismatch os dirPath n path fi err s L chunks code hroot hreg hxz
      hsize hexec hne
  · intro dirPath n path fi err s f hroot hreg hxz hopen hne
    exact walkFn_plain_mismatch os dirPath n path fi err s f hroot hreg hxz hopen hne
  · intro log hmain e he ht
    obtain ⟨s, hs, hlog⟩ := main_success_settled os log hmain
    rw [archiveEntries_eq, hlog, entriesAcc_append, List.mem_reverse] at he
    exact hs.2 e he ht

/-- C5 on a decompression command that writes 99 bytes where the listing reports 100,
and on the archive of the scenario. -/
theorem size_mismatch_is_fatal_witness :
    (∃ p s1, walkFn shortBodyWorld "R".toList 4 "R/blob.xz".toList (some blobInfo) none
      newWriter = .panicked p s1) ∧
    (∀ e ∈ archiveEntries (main (scenarioWorld "R".toList)).2, e.header.Typeflag = .TypeReg →
      (e.body.length : Int) = e.header.Size) :=
  ⟨(size_mismatch_is_fatal shortBodyWorld).1 "R".toList 4 "R/blob.xz".toList blobInfo none
      newWriter 100 [List.replicate 99 'a'] 0
      (by decide) rfl (by decide) (by decide) (by decide) (by decide),
   (size_mismatch_is_fatal (scenarioWorld "R".toList)).2.2 _ (by decide!)⟩

/-- C6 (the code at a root path with a trailing slash): for the root `R/` the walker
reports the descendant `R/sub`, and the relative path the program computes for it,
`path[len(root)+1:]`, is `ub`, not `sub`; the names in the archive of the scenario lose
their first character.  For the root `.` and its descendant `a` the slice is out of
range. -/
theorem relative_path_of_unclean_root :
    Join ["R/".toList, "sub".toList] = "R/sub".toList ∧
    sliceFrom (Join ["R/".toList, "sub".toList]) ("R/".toList.length + 1) = some "ub".toList ∧
    (archiveEntries (main (scenarioWorld "R/".toList)).2).map (fun e => e.header.Name) =
      ["lob".toList, "ub/".toList, "ub/file.txt".toList] ∧
    Join [".".toList, "a".toList] = "a".toList ∧
    sliceFrom (Join [".".toList, "a".toList]) (".".toList.length + 1) = none := by
  decide!

/-- C9 (the code when the walker reports an error): when `lstat` fails on the root the run
ends with success and an empty archive; when a directory cannot be read its header is
written, the walk goes on with the next entry and the run ends with success.  Only when
`lstat` fails on a descendant does the run abort, by the dereference of the nil
`FileInfo`. -/
theorem walk_errors_are_ignored :
    main missingRootWorld = (.success, [.close]) ∧
    main vanishedEntryWorld = (.crash .nilDereference, [.close]) ∧
    main unreadableDirWorld =
      (.success,
        [.writeHeader (directoryHeader "sub/".toList { Name := "sub".toList, stat := directoryStat }),
         .writeHeader (regularHeader "z.txt".toList 0 { Name := "z.txt".toList, stat := regularStat 0 }),
         .flush, .close]) := by
  decide!

/-- C10 (amended): in the scenario the run ends with success and the archive holds, in
this order, `blob` (size 100, body one hundred `a`), the directory `sub/` (size 0, no
body) and `sub/file.txt` (size 3, body `abc`): the walker visits the names of a directory
in lexical order and `blob.xz` sorts before `sub`. -/
theorem scenario_archive :
    (main (scenarioWorld "R".toList)).1 = .success ∧
    (archiveEntries (main (scenarioWorld "R".toList)).2).map Entry.summary =
      [("blob".toList, 100, .TypeReg, hundredA),
       ("sub/".toList, 0, .TypeDir, []),
       ("sub/file.txt".toList, 3, .TypeReg, "abc".toList)] := by
  decide!

/-- C10 (counterexample): the entries of the archive are not in the order the claim
lists them. -/
theorem scenario_archive_order :
    (archiveEntries (main (scenarioWorld "R".toList)).2).map Entry.summary ≠
      [("sub/".toList, 0, .TypeDir, []),
       ("sub/file.txt".toList, 3, .TypeReg, "abc".toList),
       ("blob".toList, 100, .TypeReg, hundredA)] := by
  decide!

end StreamTar
